import Mathlib

/-!
Verification development for the mlpack fast max-kernel search (FastMKS) core
and the tanh activation function.

The FastMKS engine itself (metric embedding, bound cache, naive, single-tree
and dual-tree traversals, candidate lists, orchestrator) is modelled from the
specification: the repository snapshot holds only the engine's test suite
(`fastmks_test.cpp`), so each component below carries a doc comment naming the
spec section it is modelled from.  Kernel values are exact rationals, so the
floating-point tolerances of the spec (satisfied by exact equality) are
implied by the equalities proved here.  The tanh activation function is
embedded directly from `tanh_function.hpp` over the reals.
-/

namespace FastMKS

/-- Candidate Entry, per spec §3: a (reference index, kernel value) pair. -/
abbrev Entry := Nat × ℚ

/-- Insertion step of an insertion sort, descending by the key `f`.  An
element is placed before the first element with a strictly smaller key, so a
tied element stays behind the entries already present. -/
def insKeyed {α : Type} (f : α → ℚ) (a : α) : List α → List α
  | [] => [a]
  | x :: xs => if f x < f a then a :: x :: xs else x :: insKeyed f a xs

/-- Insertion sort, descending by the key `f`. -/
def insSortBy {α : Type} (f : α → ℚ) : List α → List α
  | [] => []
  | x :: xs => insKeyed f x (insSortBy f xs)

/-- Modelled from the spec (§4.7): inserting a candidate entry into a list
kept sorted descending by kernel value; a value tied with an existing entry
is placed after it (ties keep the existing entry in front). -/
def insertSorted (e : Entry) (l : List Entry) : List Entry :=
  insKeyed (fun x => x.2) e l

/-- Kernel value of the current k-th (last, minimal) entry of a sorted
candidate list; `0` for an empty list (never consulted when empty). -/
def lastVal (l : List Entry) : ℚ :=
  match l.getLast? with
  | some m => m.2
  | none => 0

/-- Modelled from the spec (§4.7 Candidate List Manager, `Offer`): if the
list has fewer than k entries, insert maintaining sort order; else if the
value is strictly greater than the current minimum (k-th) entry, replace it
and re-sort; otherwise no-op.  Returns whether an insertion occurred. -/
def offer (k : Nat) (l : List Entry) (e : Entry) : List Entry × Bool :=
  if l.length < k then (insertSorted e l, true)
  else
    match l.getLast? with
    | none => (l, false)
    | some m => if m.2 < e.2 then (insertSorted e l.dropLast, true) else (l, false)

/-- Entries obtained by evaluating the kernel column `v` at a list of
reference indices. -/
def entriesOf (v : Nat → ℚ) (idxs : List Nat) : List Entry :=
  idxs.map (fun i => (i, v i))

/-- The canonical top-k candidate list of a bag of entries: sort descending
by value and keep the first k. -/
def topKList (k : Nat) (l : List Entry) : List Entry :=
  (insSortBy (fun e => e.2) l).take k

/-- Candidate list sorted non-increasingly by kernel value (spec §3). -/
def sortedDesc (l : List Entry) : Prop :=
  List.Pairwise (fun a b : Entry => b.2 ≤ a.2) l

/-- Candidate list sorted descending by value with ties broken by ascending
reference index (spec §3, determinism tie-break). -/
def lexSorted (l : List Entry) : Prop :=
  List.Pairwise (fun a b : Entry => b.2 < a.2 ∨ (a.2 = b.2 ∧ a.1 < b.1)) l

/-- Entry lists whose kernel values are pairwise distinct. -/
def distinctVals (l : List Entry) : Prop :=
  List.Pairwise (fun a b : Entry => a.2 ≠ b.2) l

instance (l : List Entry) : Decidable (sortedDesc l) := by
  unfold sortedDesc
  infer_instance

instance (l : List Entry) : Decidable (lexSorted l) := by
  unfold lexSorted
  infer_instance

instance (l : List Entry) : Decidable (distinctVals l) := by
  unfold distinctVals
  infer_instance

mutual
/-- Modelled from the spec (§3 Tree Node, §6 tree contract): a reference
index node owns a representative point (a column index) and an ordered
sequence of children.  The scale value plays no role in the searched
properties and is omitted.  `CForest` is the child sequence (a mutual
inductive stands in for `List CTree` so that structural recursion and
kernel evaluation work). -/
inductive CTree where
  | node : Nat → CForest → CTree
inductive CForest where
  | fnil : CForest
  | fcons : CTree → CForest → CForest
end

mutual
def sizeT : CTree → Nat
  | .node _ cs => 1 + sizeF cs
def sizeF : CForest → Nat
  | .fnil => 0
  | .fcons t ts => sizeT t + sizeF ts
end

mutual
/-- All point indices held in the subtree rooted at a node: its
representative followed by the points of its children. -/
def flattenT : CTree → List Nat
  | .node p cs => p :: flattenF cs
def flattenF : CForest → List Nat
  | .fnil => []
  | .fcons t ts => flattenT t ++ flattenF ts
end

def toListF : CForest → List CTree
  | .fnil => []
  | .fcons t ts => t :: toListF ts

def CTree.rep : CTree → Nat
  | .node p _ => p

def CTree.children : CTree → List CTree
  | .node _ cs => toListF cs

mutual
/-- All nodes of the subtree rooted at a node (itself included). -/
def subtreesT : CTree → List CTree
  | .node p cs => .node p cs :: subtreesF cs
def subtreesF : CForest → List CTree
  | .fnil => []
  | .fcons t ts => subtreesT t ++ subtreesF ts
end

def sizeL (ts : List CTree) : Nat := (ts.map sizeT).sum

theorem sizeT_pos (t : CTree) : 1 ≤ sizeT t := by
  cases t with
  | node p cs => simp [sizeT]

theorem insKeyed_perm {α : Type} (f : α → ℚ) (a : α) (m : List α) :
    List.Perm (insKeyed f a m) (a :: m) := by
  induction m with
  | nil => rfl
  | cons y ys ihy =>
      by_cases hy : f y < f a
      · simp [insKeyed, hy]
      · simp only [insKeyed, if_neg hy]
        exact (ihy.cons y).trans (List.Perm.swap a y ys)

theorem insSortBy_perm {α : Type} (f : α → ℚ) (l : List α) :
    List.Perm (insSortBy f l) l := by
  induction l with
  | nil => rfl
  | cons x xs ih => exact (insKeyed_perm f x (insSortBy f xs)).trans (ih.cons x)

theorem sizeL_perm {l₁ l₂ : List CTree} (h : List.Perm l₁ l₂) : sizeL l₁ = sizeL l₂ :=
  List.Perm.sum_eq (h.map sizeT)

theorem sizeL_toListF : ∀ (cs : CForest), sizeL (toListF cs) = sizeF cs
  | .fnil => rfl
  | .fcons a as => by
      have := sizeL_toListF as
      simp [toListF, sizeL, sizeF] at *
      omega

theorem sizeL_children_lt (t : CTree) : sizeL t.children < sizeT t := by
  cases t with
  | node p cs =>
      have h := sizeL_toListF cs
      simp only [CTree.children, sizeT]
      omega

/-- Modelled from the spec (§4.5 Single-Tree Traversal): a stack frontier of
reference nodes seeded with the root; a popped node is pruned when the
query's candidate list is full and the node's bound does not exceed the
current k-th best value; otherwise the kernel at its representative is
offered and its children are pushed, higher-bound children first.  `v` is
the kernel column of the query and `B` the node bound used for pruning. -/
def stSearch (k : Nat) (v : Nat → ℚ) (B : CTree → ℚ) : List CTree → List Entry → List Entry
  | [], acc => acc
  | t :: ts, acc =>
    if acc.length = k ∧ B t ≤ lastVal acc then stSearch k v B ts acc
    else stSearch k v B (insSortBy B t.children ++ ts) (offer k acc (t.rep, v t.rep)).1
termination_by ts _ => sizeL ts
decreasing_by
· have := sizeT_pos t
  simp only [sizeL, List.map_cons, List.sum_cons]
  omega
· have h1 : sizeL (insSortBy B t.children) = sizeL t.children :=
    sizeL_perm (insSortBy_perm B t.children)
  have h2 := sizeL_children_lt t
  simp only [sizeL, List.map_append, List.sum_append, List.map_cons, List.sum_cons] at *
  omega

/-- Modelled from the spec (§4.4 Naive Search): for one query, evaluate the
kernel at every reference point in index order and offer each value to the
candidate list. -/
def naiveList (k : Nat) (v : Nat → ℚ) (n : Nat) : List Entry :=
  (List.range n).foldl (fun acc i => (offer k acc (i, v i)).1) []

/-- Per-query candidate lists of the dual-tree traversal, indexed by query
point index. -/
abbrev QLists := Nat → List Entry

def updateQ (st : QLists) (q : Nat) (l : List Entry) : QLists :=
  fun q' => if q' = q then l else st q'

/-- The node standing for just the representative point of `t` when the
recursion separates a node's own point from its children. -/
def selfLeaf (t : CTree) : CTree := .node t.rep .fnil

def subnodes (t : CTree) : List CTree := selfLeaf t :: t.children

/-- Child pairs visited when the dual-tree recursion expands the pair
`(qt, rt)`: every combination of the two nodes' own points and children,
except the pair of the two representatives, which the visit itself handles. -/
def pairsOf (qt rt : CTree) : List (CTree × CTree) :=
  (rt.children.map (fun rc => (selfLeaf qt, rc))) ++
    List.product qt.children (subnodes rt)

theorem sizeT_selfLeaf (t : CTree) : sizeT (selfLeaf t) = 1 := by
  simp [selfLeaf, sizeT, sizeF]

theorem sizeT_le_of_mem_toListF :
    ∀ (cs : CForest) (c : CTree), c ∈ toListF cs → sizeT c ≤ sizeF cs
  | .fnil, c, h => by simp [toListF] at h
  | .fcons a as, c, h => by
      simp only [toListF, List.mem_cons] at h
      rcases h with h | h
      · subst h
        simp only [sizeF]
        exact Nat.le_add_right _ _
      · have := sizeT_le_of_mem_toListF as c h
        simp only [sizeF]
        omega

theorem sizeT_lt_of_mem_children {t c : CTree} (h : c ∈ t.children) :
    sizeT c < sizeT t := by
  cases t with
  | node p cs =>
      have := sizeT_le_of_mem_toListF cs c (by simpa [CTree.children] using h)
      simp only [sizeT]
      omega

theorem sizeT_le_of_mem_subnodes {t c : CTree} (h : c ∈ subnodes t) :
    sizeT c ≤ sizeT t := by
  rcases List.mem_cons.1 h with h | h
  · subst h; rw [sizeT_selfLeaf]; exact sizeT_pos t
  · exact le_of_lt (sizeT_lt_of_mem_children h)

theorem pairsOf_size {qt rt : CTree} {p : CTree × CTree} (hp : p ∈ pairsOf qt rt) :
    sizeT p.1 + sizeT p.2 < sizeT qt + sizeT rt := by
  rcases List.mem_append.1 hp with h | h
  · rcases List.mem_map.1 h with ⟨rc, hrc, hpe⟩
    subst hpe
    have h1 := sizeT_lt_of_mem_children hrc
    have h2 := sizeT_pos qt
    simp only [sizeT_selfLeaf]
    omega
  · rcases List.mem_product.1 h with ⟨h1, h2⟩
    have h3 := sizeT_lt_of_mem_children h1
    have h4 := sizeT_le_of_mem_subnodes h2
    omega

/-- Modelled from the spec (§4.6 Dual-Tree Traversal): visit the node pair,
pruning when every query under the query node has a full candidate list
whose k-th best value already reaches the pair bound (the bound must not
exceed the worst such value); otherwise offer the kernel value of the two
representatives to the query representative's list and recurse into the
child pair combinations, higher pair bounds first.  `v q r` is the kernel
between query point `q` and reference point `r`; `pB` the pair bound. -/
def dualRun (k : Nat) (v : Nat → Nat → ℚ) (pB : CTree → CTree → ℚ)
    (qt rt : CTree) (st : QLists) : QLists :=
  if ∀ q ∈ flattenT qt, (st q).length = k ∧ pB qt rt ≤ lastVal (st q) then st
  else
    let st1 := updateQ st qt.rep (offer k (st qt.rep) (rt.rep, v qt.rep rt.rep)).1
    (insSortBy (fun p => pB p.1 p.2) (pairsOf qt rt)).attach.foldl
      (fun s p => dualRun k v pB p.1.1 p.1.2 s) st1
termination_by sizeT qt + sizeT rt
decreasing_by
  have hmem : p.1 ∈ pairsOf qt rt :=
    (insSortBy_perm (fun p => pB p.1 p.2) (pairsOf qt rt)).mem_iff.1 p.2
  exact pairsOf_size hmem

/-- Dual-tree search started at the two roots with empty candidate lists. -/
def dualSearch (k : Nat) (v : Nat → Nat → ℚ) (pB : CTree → CTree → ℚ)
    (qt rt : CTree) : QLists :=
  dualRun k v pB qt rt (fun _ => [])

end FastMKS

namespace FastMKS

/-- Modelled from the spec (§4.8, §3): a sparse point stores only its
nonzero coordinates as (dimension index, value) pairs. -/
abbrev SpVec := List (Nat × ℚ)

/-- Coordinate lookup in a sparse point (0 when the index is absent). -/
def lookupSp (s : SpVec) (i : Nat) : ℚ :=
  match s.find? (fun p => p.1 == i) with
  | some p => p.2
  | none => 0

/-- The dense point holding the same logical data as a sparse point. -/
def toDense (s : SpVec) : Nat → ℚ := fun i => lookupSp s i

/-- A wellformed sparse point of dimension `d`: coordinate indices are
distinct and below `d`. -/
def WfSp (d : Nat) (s : SpVec) : Prop :=
  (s.map (fun p => p.1)).Nodup ∧ ∀ p ∈ s, p.1 < d

/-- Inner product evaluated on the sparse representation: iterate the stored
coordinates of the first point and look the second point up. -/
def dotSp (s₁ s₂ : SpVec) : ℚ :=
  s₁.foldr (fun p acc => p.2 * lookupSp s₂ p.1 + acc) 0

/-- Inner product evaluated on a dense representation of dimension `d`. -/
def dotDense (d : Nat) (f g : Nat → ℚ) : ℚ :=
  ∑ i ∈ Finset.range d, f i * g i

/-- Modelled from the spec (test scenario E): the polynomial kernel value for
a given inner product, `(dot + offset) ^ degree`. -/
def polyOf (degree : Nat) (offset : ℚ) (dot : ℚ) : ℚ :=
  (dot + offset) ^ degree

/-- Search state owned by a Search Orchestrator across calls: the per-node
bound cache (by node representative index) and the per-query candidate
lists. -/
structure SState where
  cache : Nat → Option ℚ
  lists : QLists

inductive SearchError where
  | invalidArgument
  | dimensionMismatch
deriving DecidableEq

/-- Modelled from the spec (§6 Search, §7 error handling): a `Search` call
validates `k` against the reference set size `nR` before any traversal
begins; on `k = 0` or `k` exceeding the number of reference points it fails
with an InvalidArgument condition and the search state is left untouched.
`run` stands for the traversal that would otherwise produce the result. -/
def searchCall {α : Type} (k nR : Nat) (run : SState → α × SState) (st : SState) :
    Except SearchError α × SState :=
  if k = 0 ∨ nR < k then (.error .invalidArgument, st)
  else
    let r := run st
    (.ok r.1, r.2)

/-- Modelled from the spec (§4.3 Bound Cache, `GetBound`): look the node's
bound record up by the node's representative index; on a miss compute it
with `compute` and store it, setting the computed flag (modelled by the
entry being `some`). -/
def getBoundRec (compute : CTree → ℚ) (c : Nat → Option ℚ) (t : CTree) :
    ℚ × (Nat → Option ℚ) :=
  match c t.rep with
  | some b => (b, c)
  | none => (compute t, fun i => if i = t.rep then some (compute t) else c i)

/-- Single-tree traversal threading the lazily computed bound cache: as
`stSearch`, with the node bound obtained through `getBoundRec` and combined
with the query through `g` (the query-dependent part of the bound). -/
def stSearchRec (k : Nat) (v : Nat → ℚ) (g : ℚ → ℚ) (compute : CTree → ℚ) :
    List CTree → List Entry → (Nat → Option ℚ) → List Entry × (Nat → Option ℚ)
  | [], acc, c => (acc, c)
  | t :: ts, acc, c =>
    let bc := getBoundRec compute c t
    if acc.length = k ∧ g bc.1 ≤ lastVal acc then stSearchRec k v g compute ts acc bc.2
    else stSearchRec k v g compute (t.children ++ ts)
      (offer k acc (t.rep, v t.rep)).1 bc.2
termination_by ts _ _ => sizeL ts
decreasing_by
· have := sizeT_pos t
  simp only [sizeL, List.map_cons, List.sum_cons]
  omega
· have h2 := sizeL_children_lt t
  simp only [sizeL, List.map_append, List.sum_append, List.map_cons, List.sum_cons] at *
  omega

/-- Single-tree mode over a whole query set: one traversal per query in
order, all sharing the reference tree's bound cache. -/
def searchAllRec (k : Nat) (v : Nat → Nat → ℚ) (g : Nat → ℚ → ℚ)
    (compute : CTree → ℚ) (root : CTree) (queries : List Nat)
    (c : Nat → Option ℚ) : QLists × (Nat → Option ℚ) :=
  match queries with
  | [] => (fun _ => [], c)
  | q :: qs =>
      let r := stSearchRec k (v q) (g q) compute [root] [] c
      let rest := searchAllRec k v g compute root qs r.2
      (fun q' => if q' = q then r.1 else rest.1 q', rest.2)

end FastMKS

namespace FastMKS

theorem insKeyed_sorted {α : Type} (f : α → ℚ) (a : α) {l : List α}
    (hl : List.Pairwise (fun x y => f y ≤ f x) l) :
    List.Pairwise (fun x y => f y ≤ f x) (insKeyed f a l) := by
  induction l with
  | nil => simp [insKeyed]
  | cons y ys ih =>
      rcases List.pairwise_cons.1 hl with ⟨hy, hys⟩
      by_cases h : f y < f a
      · simp only [insKeyed, if_pos h]
        refine List.pairwise_cons.2 ⟨?_, hl⟩
        intro z hz
        rcases List.mem_cons.1 hz with hz | hz
        · subst hz; exact le_of_lt h
        · exact le_trans (hy z hz) (le_of_lt h)
      · simp only [insKeyed, if_neg h]
        refine List.pairwise_cons.2 ⟨?_, ih hys⟩
        intro z hz
        have hz' := (insKeyed_perm f a ys).mem_iff.1 hz
        rcases List.mem_cons.1 hz' with hz' | hz'
        · subst hz'; exact le_of_not_lt h
        · exact hy z hz'

theorem insSortBy_sorted {α : Type} (f : α → ℚ) (l : List α) :
    List.Pairwise (fun x y => f y ≤ f x) (insSortBy f l) := by
  induction l with
  | nil => simp [insSortBy]
  | cons x xs ih => exact insKeyed_sorted f x ih

theorem eq_of_perm_of_strictSorted {α : Type} (f : α → ℚ) :
    ∀ {l₁ l₂ : List α}, List.Perm l₁ l₂ →
      List.Pairwise (fun x y => f y < f x) l₁ →
      List.Pairwise (fun x y => f y < f x) l₂ → l₁ = l₂
  | [], l₂, hp, _, _ => (hp.nil_eq).symm ▸ rfl
  | x :: xs, [], hp, _, _ => absurd hp.symm (by simp)
  | x :: xs, y :: ys, hp, h₁, h₂ => by
      rcases List.pairwise_cons.1 h₁ with ⟨hx, hxs⟩
      rcases List.pairwise_cons.1 h₂ with ⟨hy, hys⟩
      have hxy : x = y := by
        have hxmem : x ∈ y :: ys := hp.mem_iff.1 (List.mem_cons_self x xs)
        have hymem : y ∈ x :: xs := hp.symm.mem_iff.1 (List.mem_cons_self y ys)
        rcases List.mem_cons.1 hxmem with h | h
        · exact h
        · rcases List.mem_cons.1 hymem with h' | h'
          · exact h'.symm
          · exact absurd (hy x h) (not_lt.2 (le_of_lt (hx y h')))
      subst hxy
      have htail : List.Perm xs ys := (List.perm_cons x).1 hp
      rw [eq_of_perm_of_strictSorted f htail hxs hys]

theorem distinct_of_perm {l₁ l₂ : List Entry} (hp : List.Perm l₁ l₂)
    (h : distinctVals l₁) : distinctVals l₂ :=
  ((hp.pairwise_iff (fun h => h.symm)).1 h)

theorem strict_of_sorted_distinct {l : List Entry}
    (hs : List.Pairwise (fun a b : Entry => b.2 ≤ a.2) l) (hd : distinctVals l) :
    List.Pairwise (fun a b : Entry => b.2 < a.2) l :=
  (hs.and hd).imp (fun h => lt_of_le_of_ne h.1 (Ne.symm h.2))

theorem isort_eq_of_perm {l₁ l₂ : List Entry} (hp : List.Perm l₁ l₂)
    (hd : distinctVals l₁) :
    insSortBy (fun e : Entry => e.2) l₁ = insSortBy (fun e : Entry => e.2) l₂ := by
  have p₁ := insSortBy_perm (fun e : Entry => e.2) l₁
  have p₂ := insSortBy_perm (fun e : Entry => e.2) l₂
  refine eq_of_perm_of_strictSorted (fun e : Entry => e.2) (p₁.trans (hp.trans p₂.symm)) ?_ ?_
  · exact strict_of_sorted_distinct (insSortBy_sorted _ l₁) (distinct_of_perm p₁.symm hd)
  · exact strict_of_sorted_distinct (insSortBy_sorted _ l₂)
      (distinct_of_perm (hp.trans p₂.symm) hd)

theorem topKList_eq_of_perm {k : Nat} {l₁ l₂ : List Entry} (hp : List.Perm l₁ l₂)
    (hd : distinctVals l₁) : topKList k l₁ = topKList k l₂ := by
  unfold topKList
  rw [isort_eq_of_perm hp hd]

end FastMKS

namespace FastMKS

theorem insertSorted_perm (e : Entry) (l : List Entry) :
    List.Perm (insertSorted e l) (e :: l) :=
  insKeyed_perm _ e l

theorem insertSorted_sorted {e : Entry} {l : List Entry} (h : sortedDesc l) :
    sortedDesc (insertSorted e l) :=
  insKeyed_sorted _ e h

theorem length_insertSorted (e : Entry) (l : List Entry) :
    (insertSorted e l).length = l.length + 1 := by
  simpa using (insertSorted_perm e l).length_eq

theorem mem_insertSorted {e x : Entry} {l : List Entry}
    (h : x ∈ insertSorted e l) : x = e ∨ x ∈ l := by
  have := (insertSorted_perm e l).mem_iff.1 h
  simpa using this

theorem lastVal_cons {a : Entry} {l : List Entry} (h : l ≠ []) :
    lastVal (a :: l) = lastVal l := by
  cases l with
  | nil => exact absurd rfl h
  | cons b m => simp [lastVal, List.getLast?_cons_cons]

theorem lastVal_le_of_sorted : ∀ {l : List Entry}, sortedDesc l →
    ∀ {x : Entry}, x ∈ l → lastVal l ≤ x.2
  | [], _, _, hx => absurd hx (by simp)
  | [a], _, x, hx => by
      rcases List.mem_singleton.1 hx with rfl
      simp [lastVal, List.getLast?_singleton]
  | a :: b :: m, hs, x, hx => by
      rcases List.pairwise_cons.1 hs with ⟨ha, hbm⟩
      rw [lastVal_cons (by simp)]
      rcases List.mem_cons.1 hx with rfl | hx
      · have hb : (b :: m).getLast (by simp) ∈ b :: m := List.getLast_mem _
        calc lastVal (b :: m) ≤ ((b :: m).getLast (by simp)).2 := by
              exact le_of_eq (by simp [lastVal, List.getLast?_eq_getLast])
          _ ≤ x.2 := ha _ hb
      · exact lastVal_le_of_sorted hbm hx

theorem lastVal_mem {l : List Entry} (h : l ≠ []) : ∃ m ∈ l, lastVal l = m.2 := by
  refine ⟨l.getLast h, List.getLast_mem h, ?_⟩
  simp [lastVal, List.getLast?_eq_getLast l h]

theorem offer_noop {k : Nat} {l : List Entry} {e : Entry}
    (hlen : l.length = k) (hle : e.2 ≤ lastVal l) : offer k l e = (l, false) := by
  have hnl : ¬ l.length < k := by omega
  cases hl : l.getLast? with
  | none => simp [offer, if_neg hnl, hl]
  | some m =>
      have hm : lastVal l = m.2 := by simp [lastVal, hl]
      have : ¬ m.2 < e.2 := by rw [← hm]; exact not_lt.2 hle
      simp [offer, if_neg hnl, hl, this]

theorem offer_length {k : Nat} {l : List Entry} {e : Entry} (hle : l.length ≤ k) :
    (offer k l e).1.length = min k (l.length + 1) := by
  by_cases h : l.length < k
  · simp [offer, if_pos h, length_insertSorted]
    omega
  · have hkl : l.length = k := by omega
    cases hl : l.getLast? with
    | none =>
        have : l = [] := by
          cases l with
          | nil => rfl
          | cons a m => simp [List.getLast?_eq_getLast (a :: m) (by simp)] at hl
        subst this
        simp at hkl
        simp [offer, hl, ← hkl]
    | some m =>
        have hne : l ≠ [] := by
          intro hcon; subst hcon; simp at hl
        by_cases hv : m.2 < e.2
        · have hdl : l.dropLast.length = k - 1 := by
            simp [List.length_dropLast, hkl]
          simp only [offer, if_neg h, hl, if_pos hv]
          rw [length_insertSorted, hdl]
          have hk1 : 1 ≤ k := by
            rcases l with _ | ⟨a, m'⟩
            · exact absurd rfl hne
            · simp at hkl; omega
          omega
        · simp only [offer, if_neg h, hl, if_neg hv]
          omega

theorem offer_sorted {k : Nat} {l : List Entry} {e : Entry} (hs : sortedDesc l) :
    sortedDesc (offer k l e).1 := by
  by_cases h : l.length < k
  · simpa [offer, if_pos h] using insertSorted_sorted hs
  · cases hl : l.getLast? with
    | none => simpa [offer, if_neg h, hl] using hs
    | some m =>
        by_cases hv : m.2 < e.2
        · simp only [offer, if_neg h, hl, if_pos hv]
          exact insertSorted_sorted (List.Pairwise.sublist (List.dropLast_sublist l) hs)
        · simpa [offer, if_neg h, hl, if_neg hv] using hs

theorem mem_offer {k : Nat} {l : List Entry} {e x : Entry}
    (h : x ∈ (offer k l e).1) : x = e ∨ x ∈ l := by
  by_cases hlt : l.length < k
  · simp only [offer, if_pos hlt] at h
    exact mem_insertSorted h
  · cases hl : l.getLast? with
    | none =>
        simp only [offer, if_neg hlt, hl] at h
        exact Or.inr h
    | some m =>
        by_cases hv : m.2 < e.2
        · simp only [offer, if_neg hlt, hl, if_pos hv] at h
          rcases mem_insertSorted h with h | h
          · exact Or.inl h
          · exact Or.inr (List.Sublist.mem h (List.dropLast_sublist l))
        · simp only [offer, if_neg hlt, hl, if_neg hv] at h
          exact Or.inr h

theorem offer_full_lastVal_mono {k : Nat} {l : List Entry} {e : Entry}
    (hlen : l.length = k) (hk : 1 ≤ k) (hs : sortedDesc l) :
    lastVal l ≤ lastVal (offer k l e).1 := by
  have hnl : ¬ l.length < k := by omega
  have hne : l ≠ [] := by
    intro hcon; subst hcon; simp at hlen; omega
  cases hl : l.getLast? with
  | none => simp [List.getLast?_eq_getLast l hne] at hl
  | some m =>
      by_cases hv : m.2 < e.2
      · simp only [offer, if_neg hnl, hl, if_pos hv]
        have hlv : lastVal l = m.2 := by simp [lastVal, hl]
        set r := insertSorted e l.dropLast with hr
        have hrlen : r.length = l.dropLast.length + 1 := length_insertSorted _ _
        have hrne : r ≠ [] := by
          intro hcon
          rw [hcon] at hrlen
          simp at hrlen
        rcases lastVal_mem hrne with ⟨z, hz, hzv⟩
        rw [hzv, hlv]
        rcases mem_insertSorted hz with rfl | hz
        · exact le_of_lt hv
        · have : z ∈ l := List.Sublist.mem hz (List.dropLast_sublist l)
          have := lastVal_le_of_sorted hs this
          rw [hlv] at this
          exact this
      · simp only [offer, if_neg hnl, hl, if_neg hv]
        exact le_refl _

theorem isort_sorted (l : List Entry) :
    sortedDesc (insSortBy (fun e : Entry => e.2) l) :=
  insSortBy_sorted _ l

theorem isort_perm (l : List Entry) :
    List.Perm (insSortBy (fun e : Entry => e.2) l) l :=
  insSortBy_perm _ l

theorem isort_append_single {l : List Entry} {e : Entry}
    (hd : distinctVals (l ++ [e])) :
    insSortBy (fun x : Entry => x.2) (l ++ [e]) =
      insertSorted e (insSortBy (fun x : Entry => x.2) l) := by
  have p₁ := isort_perm (l ++ [e])
  have p₂ : List.Perm (insertSorted e (insSortBy (fun x : Entry => x.2) l)) (l ++ [e]) :=
    ((insertSorted_perm e _).trans ((isort_perm l).cons e)).trans
      (List.perm_append_singleton e l).symm
  refine eq_of_perm_of_strictSorted (fun x : Entry => x.2) (p₁.trans p₂.symm) ?_ ?_
  · exact strict_of_sorted_distinct (isort_sorted _) (distinct_of_perm p₁.symm hd)
  · exact strict_of_sorted_distinct (insertSorted_sorted (isort_sorted l))
      (distinct_of_perm p₂.symm hd)

theorem take_insertSorted_le {e : Entry} :
    ∀ (k : Nat) (S : List Entry), (∀ x ∈ S.take k, e.2 < x.2) → k ≤ S.length →
      (insertSorted e S).take k = S.take k
  | 0, S, _, _ => by simp
  | k + 1, [], _, hlen => by simp at hlen
  | k + 1, x :: xs, hx, hlen => by
      have hxe : e.2 < x.2 := hx x (by simp)
      have hcond : ¬ x.2 < e.2 := not_lt.2 (le_of_lt hxe)
      simp only [insertSorted, insKeyed, if_neg hcond, List.take_succ_cons]
      rw [show insKeyed (fun y : Entry => y.2) e xs = insertSorted e xs from rfl]
      rw [take_insertSorted_le k xs (fun z hz => hx z (by simp [hz])) (by simpa using hlen)]

theorem dropLast_take {α : Type} (k : Nat) (l : List α) (h : k ≤ l.length) :
    (l.take k).dropLast = l.take (k - 1) := by
  rw [List.dropLast_eq_take, List.take_take, List.length_take]
  congr 1
  omega

theorem take_insertSorted_gt {e : Entry} :
    ∀ (k : Nat) (S : List Entry) (m : Entry), k + 1 ≤ S.length →
      (S.take (k + 1)).getLast? = some m → m.2 < e.2 →
      (insertSorted e S).take (k + 1) = insertSorted e (S.take k)
  | _, [], m, hlen, _, _ => by simp at hlen
  | 0, x :: xs, m, hlen, hm, hv => by
      simp only [List.take_succ_cons, List.take_zero, List.getLast?_singleton,
        Option.some.injEq] at hm
      subst hm
      simp [insertSorted, insKeyed, if_pos hv]
  | k + 1, x :: xs, m, hlen, hm, hv => by
      have hxs : k + 1 ≤ xs.length := by simpa using hlen
      have hxsne : xs.take (k + 1) ≠ [] := by
        have h1 : (xs.take (k + 1)).length = k + 1 := by
          rw [List.length_take]; omega
        intro hcon
        rw [hcon] at h1
        simp at h1
      have hm2 : (x :: xs.take (k + 1)).getLast? = some m := by
        rw [← List.take_succ_cons]
        exact hm
      obtain ⟨b, bs, hx⟩ : ∃ b bs, xs.take (k + 1) = b :: bs := by
        rcases h : xs.take (k + 1) with _ | ⟨b, bs⟩
        · exact absurd h hxsne
        · exact ⟨b, bs, rfl⟩
      have hm' : (xs.take (k + 1)).getLast? = some m := by
        rw [hx] at hm2
        rw [List.getLast?_cons_cons] at hm2
        rw [hx]
        exact hm2
      by_cases hc : x.2 < e.2
      · simp only [insertSorted, insKeyed, if_pos hc, List.take_succ_cons]
      · simp only [insertSorted, insKeyed, if_neg hc, List.take_succ_cons]
        rw [show insKeyed (fun y : Entry => y.2) e xs = insertSorted e xs from rfl,
          show insKeyed (fun y : Entry => y.2) e (xs.take k) = insertSorted e (xs.take k)
            from rfl]
        rw [take_insertSorted_gt k xs m hxs hm' hv]

theorem topKList_length (k : Nat) (L : List Entry) :
    (topKList k L).length = min k L.length := by
  rw [topKList, List.length_take, (isort_perm L).length_eq]

theorem topKList_sorted (k : Nat) (L : List Entry) : sortedDesc (topKList k L) :=
  List.Pairwise.sublist (List.take_sublist _ _) (isort_sorted L)

theorem offer_topK {k : Nat} {L : List Entry} {e : Entry}
    (hd : distinctVals (L ++ [e])) :
    (offer k (topKList k L) e).1 = topKList k (L ++ [e]) := by
  have hS : topKList k (L ++ [e]) =
      (insertSorted e (insSortBy (fun x : Entry => x.2) L)).take k := by
    rw [topKList, isort_append_single hd]
  set S := insSortBy (fun x : Entry => x.2) L with hSdef
  have hSsort : sortedDesc S := isort_sorted L
  have hSperm : List.Perm S L := isort_perm L
  by_cases hlen : S.length < k
  · have htake : S.take k = S := List.take_of_length_le (le_of_lt hlen)
    have hcond : (topKList k L).length < k := by
      rw [topKList, ← hSdef, htake]
      exact hlen
    rw [topKList, ← hSdef, htake] at hcond ⊢
    simp only [offer, if_pos hcond]
    rw [hS, List.take_of_length_le]
    rw [length_insertSorted]
    omega
  · have hkS : k ≤ S.length := le_of_not_lt hlen
    have hTlen : (S.take k).length = k := by
      rw [List.length_take]
      omega
    have hncond : ¬ (S.take k).length < k := by omega
    rcases k with _ | k'
    · simp only [topKList, ← hSdef, List.take_zero]
      simp [offer, hS]
    · have hTne : S.take (k' + 1) ≠ [] := by
        intro hcon
        rw [hcon] at hTlen
        simp at hTlen
      have hgl : (S.take (k' + 1)).getLast? = some ((S.take (k' + 1)).getLast hTne) :=
        List.getLast?_eq_getLast _ hTne
      set m := (S.take (k' + 1)).getLast hTne with hmdef
      have hmmem : m ∈ S.take (k' + 1) := List.getLast_mem hTne
      by_cases hv : m.2 < e.2
      · rw [topKList, ← hSdef]
        simp only [offer, if_neg hncond, hgl, ← hmdef, if_pos hv]
        rw [hS, take_insertSorted_gt k' S m hkS hgl hv, dropLast_take (k' + 1) S hkS]
        simp
      · have hmS : m ∈ S := List.Sublist.mem hmmem (List.take_sublist _ _)
        have hme : m.2 ≠ e.2 := by
          rcases List.pairwise_append.1 hd with ⟨_, _, hcross⟩
          exact hcross m (hSperm.mem_iff.1 hmS) e (by simp)
        have hev : e.2 < m.2 := lt_of_le_of_ne (le_of_not_lt hv) (Ne.symm hme)
        have hTsort : sortedDesc (S.take (k' + 1)) :=
          List.Pairwise.sublist (List.take_sublist _ _) hSsort
        have hml : lastVal (S.take (k' + 1)) = m.2 := by
          simp [lastVal, hgl]
        have hall : ∀ x ∈ S.take (k' + 1), e.2 < x.2 := by
          intro x hx
          have := lastVal_le_of_sorted hTsort hx
          rw [hml] at this
          exact lt_of_lt_of_le hev this
        rw [topKList, ← hSdef]
        simp only [offer, if_neg hncond, hgl, ← hmdef, if_neg hv]
        rw [hS, take_insertSorted_le (k' + 1) S hall hkS]

theorem distinct_sublist {L₁ L₂ : List Entry} (h : List.Sublist L₁ L₂)
    (hd : distinctVals L₂) : distinctVals L₁ :=
  List.Pairwise.sublist h hd

theorem foldl_offer_topK (k : Nat) : ∀ (L : List Entry), distinctVals L →
    L.foldl (fun acc e => (offer k acc e).1) [] = topKList k L := by
  intro L
  induction L using List.reverseRecOn with
  | nil =>
      intro _
      simp [topKList, insSortBy]
  | append_singleton L e ih =>
      intro hd
      have hdL : distinctVals L := distinct_sublist (List.sublist_append_left L [e]) hd
      rw [List.foldl_append, ih hdL, List.foldl_cons, List.foldl_nil, offer_topK hd]

theorem foldl_offer_noop (k : Nat) : ∀ (M : List Entry) (l : List Entry), l.length = k →
    (∀ e ∈ M, e.2 ≤ lastVal l) → M.foldl (fun acc e => (offer k acc e).1) l = l
  | [], l, _, _ => rfl
  | e :: M, l, hlen, hle => by
      rw [List.foldl_cons,
        show (offer k l e).1 = l from by rw [offer_noop hlen (hle e (by simp))]]
      exact foldl_offer_noop k M l hlen (fun x hx => hle x (by simp [hx]))

theorem foldl_offer_from (k : Nat) (L M : List Entry) (hd : distinctVals (L ++ M)) :
    topKList k (L ++ M) = M.foldl (fun acc e => (offer k acc e).1) (topKList k L) := by
  have hdL : distinctVals L := distinct_sublist (List.sublist_append_left L M) hd
  rw [← foldl_offer_topK k L hdL, ← List.foldl_append, foldl_offer_topK k _ hd]

theorem topK_append_noop {k : Nat} {L M : List Entry} (hd : distinctVals (L ++ M))
    (hlen : (topKList k L).length = k)
    (hle : ∀ e ∈ M, e.2 ≤ lastVal (topKList k L)) :
    topKList k (L ++ M) = topKList k L := by
  rw [foldl_offer_from k L M hd]
  exact foldl_offer_noop k M _ hlen hle

theorem foldl_offer_mono (k : Nat) (hk : 1 ≤ k) :
    ∀ (M : List Entry) (l : List Entry), l.length = k → sortedDesc l →
      lastVal l ≤ lastVal (M.foldl (fun acc e => (offer k acc e).1) l) ∧
        (M.foldl (fun acc e => (offer k acc e).1) l).length = k ∧
        sortedDesc (M.foldl (fun acc e => (offer k acc e).1) l)
  | [], l, hlen, hs => ⟨le_refl _, hlen, hs⟩
  | e :: M, l, hlen, hs => by
      have hlen' : (offer k l e).1.length = k := by
        rw [offer_length (le_of_eq hlen), hlen]
        omega
      have hs' : sortedDesc (offer k l e).1 := offer_sorted hs
      have h1 : lastVal l ≤ lastVal (offer k l e).1 :=
        offer_full_lastVal_mono hlen hk hs
      have := foldl_offer_mono k hk M (offer k l e).1 hlen' hs'
      rw [List.foldl_cons]
      exact ⟨le_trans h1 this.1, this.2.1, this.2.2⟩

theorem topK_lastVal_mono {k : Nat} (hk : 1 ≤ k) {L M : List Entry}
    (hd : distinctVals (L ++ M)) (hlen : (topKList k L).length = k) :
    lastVal (topKList k L) ≤ lastVal (topKList k (L ++ M)) ∧
      (topKList k (L ++ M)).length = k := by
  rw [foldl_offer_from k L M hd]
  have := foldl_offer_mono k hk M (topKList k L) hlen (topKList_sorted k L)
  exact ⟨this.1, this.2.1⟩

theorem flattenF_toListF : ∀ (cs : CForest), (toListF cs).flatMap flattenT = flattenF cs
  | .fnil => rfl
  | .fcons a as => by
      have := flattenF_toListF as
      simp only [toListF, List.flatMap_cons, flattenF]
      rw [this]

theorem flattenT_eq (t : CTree) : flattenT t = t.rep :: t.children.flatMap flattenT := by
  cases t with
  | node p cs =>
      simp only [flattenT, CTree.rep, CTree.children, flattenF_toListF]

theorem entriesOf_perm (v : Nat → ℚ) {A B : List Nat} (h : List.Perm A B) :
    List.Perm (entriesOf v A) (entriesOf v B) :=
  h.map _

theorem entriesOf_append (v : Nat → ℚ) (A B : List Nat) :
    entriesOf v (A ++ B) = entriesOf v A ++ entriesOf v B :=
  List.map_append _ A B

theorem stSearch_topK (k : Nat) (hk : 1 ≤ k) (v : Nat → ℚ) (B : CTree → ℚ)
    (hB : ∀ (t : CTree), ∀ i ∈ flattenT t, v i ≤ B t) :
    ∀ (n : Nat) (ts : List CTree) (P : List Nat), sizeL ts ≤ n →
      distinctVals (entriesOf v (P ++ ts.flatMap flattenT)) →
      stSearch k v B ts (topKList k (entriesOf v P)) =
        topKList k (entriesOf v (P ++ ts.flatMap flattenT)) := by
  intro n
  induction n with
  | zero =>
      intro ts P hn hd
      cases ts with
      | nil => simp [stSearch]
      | cons t ts' =>
          exfalso
          have := sizeT_pos t
          simp only [sizeL, List.map_cons, List.sum_cons] at hn
          omega
  | succ n ih =>
      intro ts P hn hd
      cases ts with
      | nil => simp [stSearch]
      | cons t ts' =>
          have hsz : sizeL ts' ≤ n := by
            have := sizeT_pos t
            simp only [sizeL, List.map_cons, List.sum_cons] at hn ⊢
            omega
          by_cases hp : (topKList k (entriesOf v P)).length = k ∧
              B t ≤ lastVal (topKList k (entriesOf v P))
          · rw [show stSearch k v B (t :: ts') (topKList k (entriesOf v P)) =
                stSearch k v B ts' (topKList k (entriesOf v P)) from by
                  rw [stSearch]
                  rw [if_pos hp]]
            have hdsub : distinctVals (entriesOf v (P ++ ts'.flatMap flattenT)) := by
              refine distinct_sublist ?_ hd
              rw [entriesOf_append, entriesOf_append, List.flatMap_cons, entriesOf_append]
              refine List.Sublist.append (List.Sublist.refl _) ?_
              exact List.sublist_append_right _ _
            have hpermNat : List.Perm (P ++ (t :: ts').flatMap flattenT)
                ((P ++ ts'.flatMap flattenT) ++ flattenT t) := by
              rw [List.flatMap_cons, List.append_assoc]
              exact List.Perm.append_left P List.perm_append_comm
            have e1 : topKList k (entriesOf v (P ++ (t :: ts').flatMap flattenT)) =
                topKList k (entriesOf v ((P ++ ts'.flatMap flattenT) ++ flattenT t)) :=
              topKList_eq_of_perm (entriesOf_perm v hpermNat) hd
            have hdsub2 : distinctVals
                (entriesOf v (P ++ ts'.flatMap flattenT) ++ entriesOf v (flattenT t)) := by
              rw [← entriesOf_append]
              exact distinct_of_perm (entriesOf_perm v hpermNat) hd
            have hdPR : distinctVals (entriesOf v P ++ entriesOf v (ts'.flatMap flattenT)) := by
              rw [← entriesOf_append]
              exact hdsub
            have hmono := topK_lastVal_mono hk hdPR hp.1
            have hlenPR : (topKList k (entriesOf v (P ++ ts'.flatMap flattenT))).length = k := by
              rw [entriesOf_append]
              exact hmono.2
            have hvals : ∀ e ∈ entriesOf v (flattenT t),
                e.2 ≤ lastVal (topKList k (entriesOf v (P ++ ts'.flatMap flattenT))) := by
              intro e he
              rcases List.mem_map.1 he with ⟨i, hi, rfl⟩
              refine le_trans (le_trans (hB t i hi) hp.2) ?_
              rw [entriesOf_append]
              exact hmono.1
            have e2 : topKList k
                (entriesOf v (P ++ ts'.flatMap flattenT) ++ entriesOf v (flattenT t)) =
                topKList k (entriesOf v (P ++ ts'.flatMap flattenT)) :=
              topK_append_noop hdsub2 hlenPR hvals
            rw [ih ts' P hsz hdsub, e1]
            rw [show entriesOf v (P ++ ts'.flatMap flattenT ++ flattenT t) =
                entriesOf v (P ++ ts'.flatMap flattenT) ++ entriesOf v (flattenT t) from
              entriesOf_append v _ _]
            rw [e2]
          · rw [show stSearch k v B (t :: ts') (topKList k (entriesOf v P)) =
                stSearch k v B (insSortBy B t.children ++ ts')
                  (offer k (topKList k (entriesOf v P)) (t.rep, v t.rep)).1 from by
                  rw [stSearch]
                  rw [if_neg hp]]
            have hrepsub : List.Sublist (P ++ [t.rep]) (P ++ (t :: ts').flatMap flattenT) := by
              refine List.Sublist.append (List.Sublist.refl _) ?_
              rw [List.flatMap_cons, flattenT_eq t]
              exact (List.singleton_sublist.2 (by simp)).trans (List.sublist_append_left _ _)
            have hdrep : distinctVals (entriesOf v (P ++ [t.rep])) :=
              distinct_sublist (hrepsub.map _) hd
            have hdrep2 : distinctVals (entriesOf v P ++ [(t.rep, v t.rep)]) := by
              rw [show entriesOf v P ++ [(t.rep, v t.rep)] = entriesOf v (P ++ [t.rep]) from by
                rw [entriesOf_append]
                rfl]
              exact hdrep
            have hoff : (offer k (topKList k (entriesOf v P)) (t.rep, v t.rep)).1 =
                topKList k (entriesOf v (P ++ [t.rep])) := by
              rw [offer_topK hdrep2, entriesOf_append]
              rfl
            rw [hoff]
            have hch : List.Perm ((insSortBy B t.children).flatMap flattenT)
                (t.children.flatMap flattenT) :=
              List.Perm.flatMap_right flattenT (insSortBy_perm B t.children)
            have hpermfront : List.Perm
                ((P ++ [t.rep]) ++ (insSortBy B t.children ++ ts').flatMap flattenT)
                (P ++ (t :: ts').flatMap flattenT) := by
              simp only [List.flatMap_append, List.flatMap_cons, flattenT_eq t,
                List.append_assoc, List.cons_append, List.singleton_append]
              exact List.Perm.append_left P ((hch.append_right _).cons t.rep)
            have hdfront : distinctVals
                (entriesOf v ((P ++ [t.rep]) ++ (insSortBy B t.children ++ ts').flatMap flattenT)) :=
              distinct_of_perm (entriesOf_perm v hpermfront.symm) hd
            have hszfront : sizeL (insSortBy B t.children ++ ts') ≤ n := by
              have h1 : sizeL (insSortBy B t.children) = sizeL t.children :=
                sizeL_perm (insSortBy_perm B t.children)
              have h2 := sizeL_children_lt t
              simp only [sizeL, List.map_append, List.sum_append, List.map_cons,
                List.sum_cons] at hn h1 h2 ⊢
              omega
            rw [ih (insSortBy B t.children ++ ts') (P ++ [t.rep]) hszfront hdfront]
            exact topKList_eq_of_perm (entriesOf_perm v hpermfront) hdfront

/-- Entries a pair visit contributes to query point q: all reference points
under the reference node, when q lies under the query node. -/
def pairEntries (v : Nat → Nat → ℚ) (q : Nat) (a b : CTree) : List Entry :=
  if q ∈ flattenT a then entriesOf (v q) (flattenT b) else []

/-- Entries a list of pair visits contributes to query point q. -/
def pairListEntries (v : Nat → Nat → ℚ) (q : Nat) (pl : List (CTree × CTree)) : List Entry :=
  pl.flatMap (fun p => pairEntries v q p.1 p.2)

theorem flattenT_selfLeaf (t : CTree) : flattenT (selfLeaf t) = [t.rep] := by
  simp [selfLeaf, flattenT, flattenF]

theorem subnodes_flatMap (t : CTree) : (subnodes t).flatMap flattenT = flattenT t := by
  rw [subnodes, List.flatMap_cons, flattenT_selfLeaf, flattenT_eq t]
  rfl

theorem sublist_flatMap_of_mem {α β : Type} (f : α → List β) :
    ∀ {l : List α} {c : α}, c ∈ l → List.Sublist (f c) (l.flatMap f)
  | a :: as, c, hc => by
      rcases List.mem_cons.1 hc with rfl | hc
      · rw [List.flatMap_cons]
        exact List.sublist_append_left _ _
      · rw [List.flatMap_cons]
        exact (sublist_flatMap_of_mem f hc).trans (List.sublist_append_right _ _)

theorem flattenT_sublist_of_subnode {t a : CTree} (h : a ∈ subnodes t) :
    List.Sublist (flattenT a) (flattenT t) := by
  rcases List.mem_cons.1 h with rfl | h
  · rw [flattenT_selfLeaf, flattenT_eq t]
    exact (List.singleton_sublist.2 (by simp)).trans (List.Sublist.refl _)
  · rw [flattenT_eq t]
    exact (sublist_flatMap_of_mem flattenT h).trans (List.sublist_cons_self _ _)

theorem pairsOf_mem_fst {qt rt : CTree} {p : CTree × CTree} (hp : p ∈ pairsOf qt rt) :
    p.1 ∈ subnodes qt := by
  rcases List.mem_append.1 hp with h | h
  · rcases List.mem_map.1 h with ⟨rc, _, hpe⟩
    subst hpe
    exact List.mem_cons_self _ _
  · rcases List.mem_product.1 h with ⟨h1, _⟩
    exact List.mem_cons_of_mem _ h1

theorem flatMap_ite_zero (v : Nat → Nat → ℚ) (q : Nat) (X : List Entry) :
    ∀ (l : List CTree), q ∉ l.flatMap flattenT →
      l.flatMap (fun qc => if q ∈ flattenT qc then X else []) = []
  | [], _ => rfl
  | c :: cs, h => by
      rw [List.flatMap_cons] at h ⊢
      have hc : q ∉ flattenT c := fun hc => h (List.mem_append.2 (Or.inl hc))
      have hcs : q ∉ cs.flatMap flattenT := fun hc => h (List.mem_append.2 (Or.inr hc))
      rw [if_neg hc, List.nil_append]
      exact flatMap_ite_zero v q X cs hcs

theorem flatMap_ite_single (v : Nat → Nat → ℚ) (q : Nat) (X : List Entry) :
    ∀ (l : List CTree), (l.flatMap flattenT).Nodup → q ∈ l.flatMap flattenT →
      l.flatMap (fun qc => if q ∈ flattenT qc then X else []) = X
  | [], _, hq => absurd hq (by simp)
  | c :: cs, hnd, hq => by
      rw [List.flatMap_cons] at hnd hq ⊢
      rcases List.nodup_append.1 hnd with ⟨hnd1, hnd2, hdisj⟩
      by_cases hc : q ∈ flattenT c
      · have hq2 : q ∉ cs.flatMap flattenT := fun h => hdisj hc h
        rw [if_pos hc, flatMap_ite_zero v q X cs hq2, List.append_nil]
      · have hq2 : q ∈ cs.flatMap flattenT := by
          rcases List.mem_append.1 hq with h | h
          · exact absurd h hc
          · exact h
        rw [if_neg hc, List.nil_append]
        exact flatMap_ite_single v q X cs hnd2 hq2

theorem inner_subnodes_eq (v : Nat → Nat → ℚ) (q : Nat) (a rt : CTree) :
    (subnodes rt).flatMap (fun b => pairEntries v q a b) =
      if q ∈ flattenT a then entriesOf (v q) (flattenT rt) else [] := by
  by_cases ha : q ∈ flattenT a
  · rw [if_pos ha]
    simp only [pairEntries, if_pos ha]
    rw [entriesOf, ← subnodes_flatMap rt, List.map_flatMap]
    rfl
  · rw [if_neg ha]
    simp [pairEntries, if_neg ha]

theorem pairListEntries_decomp (v : Nat → Nat → ℚ) (q : Nat) (qt rt : CTree)
    (hnd : (flattenT qt).Nodup) :
    (if q = qt.rep then [(rt.rep, v q rt.rep)] else []) ++
        pairListEntries v q (pairsOf qt rt) =
      pairEntries v q qt rt := by
  have hfl := flattenT_eq qt
  rw [hfl] at hnd
  rcases List.nodup_cons.1 hnd with ⟨hrep, hndch⟩
  have hpart : pairListEntries v q (pairsOf qt rt) =
      (rt.children.flatMap (fun rc => pairEntries v q (selfLeaf qt) rc)) ++
        (qt.children.flatMap (fun a =>
          if q ∈ flattenT a then entriesOf (v q) (flattenT rt) else [])) := by
    rw [pairListEntries, pairsOf, List.flatMap_append, List.flatMap_map]
    congr 1
    rw [show List.product qt.children (subnodes rt) =
        qt.children.flatMap (fun a => (subnodes rt).map (Prod.mk a)) from rfl]
    rw [List.flatMap_assoc]
    refine List.flatMap_congr (fun a _ => ?_)
    rw [List.flatMap_map]
    exact inner_subnodes_eq v q a rt
  by_cases hq : q = qt.rep
  · have hnotch : q ∉ qt.children.flatMap flattenT := by
      rw [hq]
      exact hrep
    rw [hpart, flatMap_ite_zero v q _ _ hnotch, List.append_nil]
    have h1 : rt.children.flatMap (fun rc => pairEntries v q (selfLeaf qt) rc) =
        entriesOf (v q) (rt.children.flatMap flattenT) := by
      simp only [pairEntries, flattenT_selfLeaf, List.mem_singleton, if_pos hq]
      rw [entriesOf, List.map_flatMap]
      rfl
    rw [if_pos hq, h1, pairEntries,
      if_pos (show q ∈ flattenT qt from by rw [hfl, hq]; exact List.mem_cons_self _ _)]
    rw [flattenT_eq rt]
    simp [entriesOf]
  · rw [if_neg hq, List.nil_append, hpart]
    have h1 : rt.children.flatMap (fun rc => pairEntries v q (selfLeaf qt) rc) = [] := by
      simp only [pairEntries, flattenT_selfLeaf, List.mem_singleton, if_neg hq]
      simp
    rw [h1, List.nil_append]
    by_cases hmem : q ∈ qt.children.flatMap flattenT
    · rw [flatMap_ite_single v q _ _ hndch hmem, pairEntries,
        if_pos (by rw [hfl]; exact List.mem_cons_of_mem _ hmem)]
    · rw [flatMap_ite_zero v q _ _ hmem, pairEntries,
        if_neg (by rw [hfl]; simp [hq, hmem])]

theorem rep_mem_flattenT (t : CTree) : t.rep ∈ flattenT t := by
  rw [flattenT_eq]
  exact List.mem_cons_self _ _

theorem dualRun_eq (k : Nat) (v : Nat → Nat → ℚ) (pB : CTree → CTree → ℚ)
    (qt rt : CTree) (st : QLists) :
    dualRun k v pB qt rt st =
      if ∀ q ∈ flattenT qt, (st q).length = k ∧ pB qt rt ≤ lastVal (st q) then st
      else
        (insSortBy (fun p => pB p.1 p.2) (pairsOf qt rt)).foldl
          (fun s pr => dualRun k v pB pr.1 pr.2 s)
          (updateQ st qt.rep (offer k (st qt.rep) (rt.rep, v qt.rep rt.rep)).1) := by
  rw [dualRun]
  by_cases h : ∀ q ∈ flattenT qt, (st q).length = k ∧ pB qt rt ≤ lastVal (st q)
  · rw [if_pos h, if_pos h]
  · rw [if_neg h, if_neg h]
    exact List.foldl_attach _ (fun s (pr : CTree × CTree) => dualRun k v pB pr.1 pr.2 s) _

theorem ite_append_pull {c : Prop} [Decidable c] (A B : List Entry) :
    (if c then A ++ B else A) = A ++ (if c then B else []) := by
  by_cases h : c
  · rw [if_pos h, if_pos h]
  · rw [if_neg h, if_neg h, List.append_nil]

theorem dualRun_topK (k : Nat) (v : Nat → Nat → ℚ) (pB : CTree → CTree → ℚ)
    (hpB : ∀ (a b : CTree), ∀ q ∈ flattenT a, ∀ r ∈ flattenT b, v q r ≤ pB a b) :
    ∀ (n : Nat) (qt rt : CTree), sizeT qt + sizeT rt ≤ n →
      (flattenT qt).Nodup →
      ∀ (P : Nat → List Nat),
      (∀ x, distinctVals (entriesOf (v x) (P x) ++ pairEntries v x qt rt)) →
      ∀ x, dualRun k v pB qt rt (fun y => topKList k (entriesOf (v y) (P y))) x =
        topKList k (entriesOf (v x) (P x) ++ pairEntries v x qt rt) := by
  intro n
  induction n with
  | zero =>
      intro qt rt hsz
      exfalso
      have h1 := sizeT_pos qt
      have h2 := sizeT_pos rt
      omega
  | succ n ih =>
      intro qt rt hsz hnd P hdist x
      rw [dualRun_eq]
      by_cases hpr : ∀ y ∈ flattenT qt,
          ((fun y => topKList k (entriesOf (v y) (P y))) y).length = k ∧
            pB qt rt ≤ lastVal ((fun y => topKList k (entriesOf (v y) (P y))) y)
      · rw [if_pos hpr]
        by_cases hxm : x ∈ flattenT qt
        · rcases hpr x hxm with ⟨hlen, hlast⟩
          simp only [] at hlen hlast
          rw [pairEntries, if_pos hxm]
          have hdx : distinctVals (entriesOf (v x) (P x) ++ entriesOf (v x) (flattenT rt)) := by
            have := hdist x
            rw [pairEntries, if_pos hxm] at this
            exact this
          refine (topK_append_noop hdx hlen ?_).symm
          intro e he
          rcases List.mem_map.1 he with ⟨r, hr, rfl⟩
          exact le_trans (hpB qt rt x hxm r hr) hlast
        · rw [pairEntries, if_neg hxm, List.append_nil]
      · rw [if_neg hpr]
        have hrepm : qt.rep ∈ flattenT qt := rep_mem_flattenT qt
        have hstate : updateQ (fun y => topKList k (entriesOf (v y) (P y))) qt.rep
            (offer k (topKList k (entriesOf (v qt.rep) (P qt.rep)))
              (rt.rep, v qt.rep rt.rep)).1 =
            fun y => topKList k (entriesOf (v y)
              (if y = qt.rep then P y ++ [rt.rep] else P y)) := by
          funext y
          rw [updateQ]
          by_cases hy : y = qt.rep
          · rw [if_pos hy, if_pos hy, hy]
            have hdr : distinctVals (entriesOf (v qt.rep) (P qt.rep) ++
                [(rt.rep, v qt.rep rt.rep)]) := by
              refine distinct_sublist ?_ (hdist qt.rep)
              rw [pairEntries, if_pos hrepm, flattenT_eq rt]
              refine List.Sublist.append (List.Sublist.refl _) ?_
              rw [entriesOf, List.map_cons]
              exact List.Sublist.cons₂ _ (List.nil_sublist _)
            rw [offer_topK hdr, entriesOf_append]
            rfl
          · rw [if_neg hy, if_neg hy]
        rw [hstate]
        have hsortperm :
            List.Perm (insSortBy (fun p => pB p.1 p.2) (pairsOf qt rt)) (pairsOf qt rt) :=
          insSortBy_perm _ _
        have hfold : ∀ (pl : List (CTree × CTree)),
            (∀ p ∈ pl, sizeT p.1 + sizeT p.2 ≤ n) →
            (∀ p ∈ pl, (flattenT p.1).Nodup) →
            ∀ (P2 : Nat → List Nat),
            (∀ y, distinctVals (entriesOf (v y) (P2 y) ++ pairListEntries v y pl)) →
            ∀ y, pl.foldl (fun s pr => dualRun k v pB pr.1 pr.2 s)
                (fun z => topKList k (entriesOf (v z) (P2 z))) y =
              topKList k (entriesOf (v y) (P2 y) ++ pairListEntries v y pl) := by
          intro pl
          induction pl with
          | nil =>
              intro _ _ P2 _ y
              simp [pairListEntries]
          | cons pr rest ihl =>
              intro hszs hnds P2 hd2 y
              rw [List.foldl_cons]
              have hheadc : ∀ z, distinctVals
                  (entriesOf (v z) (P2 z) ++ pairEntries v z pr.1 pr.2) := by
                intro z
                refine distinct_sublist ?_ (hd2 z)
                rw [pairListEntries, List.flatMap_cons]
                exact List.Sublist.append (List.Sublist.refl _)
                  (List.sublist_append_left _ _)
              have hhead := ih pr.1 pr.2 (hszs pr (List.mem_cons_self _ _))
                (hnds pr (List.mem_cons_self _ _)) P2 hheadc
              have hstate2 : dualRun k v pB pr.1 pr.2
                  (fun z => topKList k (entriesOf (v z) (P2 z))) =
                  fun z => topKList k (entriesOf (v z)
                    (P2 z ++ (if z ∈ flattenT pr.1 then flattenT pr.2 else []))) := by
                funext z
                rw [hhead z]
                congr 1
                rw [entriesOf_append]
                congr 1
                by_cases hz : z ∈ flattenT pr.1
                · rw [pairEntries, if_pos hz, if_pos hz]
                · rw [pairEntries, if_neg hz, if_neg hz]
                  rfl
              rw [hstate2]
              have hd3 : ∀ z, distinctVals (entriesOf (v z)
                  (P2 z ++ (if z ∈ flattenT pr.1 then flattenT pr.2 else [])) ++
                    pairListEntries v z rest) := by
                intro z
                have := hd2 z
                rw [pairListEntries, List.flatMap_cons, ← List.append_assoc] at this
                rw [entriesOf_append]
                have hiteeq : entriesOf (v z)
                    (if z ∈ flattenT pr.1 then flattenT pr.2 else []) =
                    pairEntries v z pr.1 pr.2 := by
                  by_cases hz : z ∈ flattenT pr.1
                  · rw [pairEntries, if_pos hz, if_pos hz]
                  · rw [pairEntries, if_neg hz, if_neg hz]
                    rfl
                rw [hiteeq]
                exact this
              rw [ihl (fun p hp => hszs p (List.mem_cons_of_mem _ hp))
                (fun p hp => hnds p (List.mem_cons_of_mem _ hp)) _ hd3 y]
              congr 1
              rw [entriesOf_append]
              have hiteeq : entriesOf (v y)
                  (if y ∈ flattenT pr.1 then flattenT pr.2 else []) =
                  pairEntries v y pr.1 pr.2 := by
                by_cases hz : y ∈ flattenT pr.1
                · rw [pairEntries, if_pos hz, if_pos hz]
                · rw [pairEntries, if_neg hz, if_neg hz]
                  rfl
              rw [hiteeq]
              simp only [pairListEntries, List.flatMap_cons, List.append_assoc]
        have hP1eq : ∀ z, entriesOf (v z) (if z = qt.rep then P z ++ [rt.rep] else P z) =
            entriesOf (v z) (P z) ++
              (if z = qt.rep then [(rt.rep, v z rt.rep)] else []) := by
          intro z
          by_cases hz : z = qt.rep
          · rw [if_pos hz, if_pos hz, entriesOf_append]
            rfl
          · rw [if_neg hz, if_neg hz, List.append_nil]
        have hdP1 : ∀ z, distinctVals
            (entriesOf (v z) (if z = qt.rep then P z ++ [rt.rep] else P z) ++
              pairListEntries v z (insSortBy (fun p => pB p.1 p.2) (pairsOf qt rt))) := by
          intro z
          have hperm2 : List.Perm
              (entriesOf (v z) (if z = qt.rep then P z ++ [rt.rep] else P z) ++
                pairListEntries v z (insSortBy (fun p => pB p.1 p.2) (pairsOf qt rt)))
              (entriesOf (v z) (P z) ++ pairEntries v z qt rt) := by
            rw [hP1eq z, List.append_assoc]
            refine List.Perm.append_left _ ?_
            have hplperm : List.Perm
                (pairListEntries v z (insSortBy (fun p => pB p.1 p.2) (pairsOf qt rt)))
                (pairListEntries v z (pairsOf qt rt)) :=
              List.Perm.flatMap_right _ hsortperm
            refine (List.Perm.append_left _ hplperm).trans ?_
            rw [pairListEntries_decomp v z qt rt hnd]
          exact distinct_of_perm hperm2.symm (hdist z)
        have hout := hfold (insSortBy (fun p => pB p.1 p.2) (pairsOf qt rt))
          (fun p hp => by
            have hm := hsortperm.mem_iff.1 hp
            have := pairsOf_size hm
            omega)
          (fun p hp => by
            have hm := hsortperm.mem_iff.1 hp
            exact List.Nodup.sublist
              (flattenT_sublist_of_subnode (pairsOf_mem_fst hm)) hnd)
          (fun z => if z = qt.rep then P z ++ [rt.rep] else P z) hdP1 x
        rw [hout]
        have hperm3 : List.Perm
            (entriesOf (v x) (if x = qt.rep then P x ++ [rt.rep] else P x) ++
              pairListEntries v x (insSortBy (fun p => pB p.1 p.2) (pairsOf qt rt)))
            (entriesOf (v x) (P x) ++ pairEntries v x qt rt) := by
          rw [hP1eq x, List.append_assoc]
          refine List.Perm.append_left _ ?_
          have hplperm : List.Perm
              (pairListEntries v x (insSortBy (fun p => pB p.1 p.2) (pairsOf qt rt)))
              (pairListEntries v x (pairsOf qt rt)) :=
            List.Perm.flatMap_right _ hsortperm
          refine (List.Perm.append_left _ hplperm).trans ?_
          rw [pairListEntries_decomp v x qt rt hnd]
        exact topKList_eq_of_perm hperm3 (hdP1 x)

theorem distinct_entries_of (v : Nat → ℚ) {idxs : List Nat} {n : Nat}
    (hn : ∀ i ∈ idxs, i < n) (hnd : idxs.Nodup)
    (hinj : ∀ i < n, ∀ j < n, i ≠ j → v i ≠ v j) :
    distinctVals (entriesOf v idxs) := by
  rw [entriesOf, distinctVals, List.pairwise_map]
  refine List.Pairwise.imp_of_mem ?_ hnd
  intro a b ha hb hab
  exact hinj a (hn a ha) b (hn b hb) hab

theorem naiveList_topK (k : Nat) (v : Nat → ℚ) (n : Nat)
    (hd : distinctVals (entriesOf v (List.range n))) :
    naiveList k v n = topKList k (entriesOf v (List.range n)) := by
  rw [naiveList, ← foldl_offer_topK k _ hd, entriesOf, List.foldl_map]

theorem stSearch_root_topK (k : Nat) (hk : 1 ≤ k) (v : Nat → ℚ) (B : CTree → ℚ)
    (hB : ∀ (t : CTree), ∀ i ∈ flattenT t, v i ≤ B t) (t : CTree)
    (hd : distinctVals (entriesOf v (flattenT t))) :
    stSearch k v B [t] [] = topKList k (entriesOf v (flattenT t)) := by
  have h0 : topKList k (entriesOf v ([] : List Nat)) = [] := by
    simp [topKList, entriesOf, insSortBy]
  have h1 := stSearch_topK k hk v B hB (sizeL [t]) [t] [] (le_refl _) (by simpa using hd)
  rw [h0] at h1
  simpa using h1

theorem stSearch_eq_naive (k : Nat) (hk : 1 ≤ k) (v : Nat → ℚ) (B : CTree → ℚ)
    (hB : ∀ (t : CTree), ∀ i ∈ flattenT t, v i ≤ B t) (t : CTree) (n : Nat)
    (hperm : List.Perm (flattenT t) (List.range n))
    (hinj : ∀ i < n, ∀ j < n, i ≠ j → v i ≠ v j) :
    stSearch k v B [t] [] = naiveList k v n := by
  have hnd : (flattenT t).Nodup := hperm.nodup_iff.2 (List.nodup_range n)
  have hn : ∀ i ∈ flattenT t, i < n := fun i hi => List.mem_range.1 (hperm.mem_iff.1 hi)
  have hd : distinctVals (entriesOf v (flattenT t)) := distinct_entries_of v hn hnd hinj
  have hdr : distinctVals (entriesOf v (List.range n)) :=
    distinct_entries_of v (fun i hi => List.mem_range.1 hi) (List.nodup_range n) hinj
  rw [stSearch_root_topK k hk v B hB t hd, naiveList_topK k v n hdr]
  exact topKList_eq_of_perm (entriesOf_perm v hperm) hd

theorem dualSearch_root_topK (k : Nat) (v : Nat → Nat → ℚ) (pB : CTree → CTree → ℚ)
    (hpB : ∀ (a b : CTree), ∀ q ∈ flattenT a, ∀ r ∈ flattenT b, v q r ≤ pB a b)
    (qt rt : CTree) (hnd : (flattenT qt).Nodup)
    (hd : ∀ x, distinctVals (pairEntries v x qt rt)) :
    ∀ x, dualSearch k v pB qt rt x = topKList k (pairEntries v x qt rt) := by
  intro x
  have h0 : (fun _ : Nat => ([] : List Entry)) =
      fun y => topKList k (entriesOf (v y) ([] : List Nat)) := by
    funext y
    simp [topKList, entriesOf, insSortBy]
  rw [dualSearch, h0]
  have h1 := dualRun_topK k v pB hpB (sizeT qt + sizeT rt) qt rt (le_refl _) hnd
    (fun _ => []) (fun y => by simpa using hd y) x
  simpa using h1

theorem dualSearch_eq_naive (k : Nat) (v : Nat → Nat → ℚ) (pB : CTree → CTree → ℚ)
    (hpB : ∀ (a b : CTree), ∀ q ∈ flattenT a, ∀ r ∈ flattenT b, v q r ≤ pB a b)
    (qt rt : CTree) (nQ nR : Nat)
    (hq : List.Perm (flattenT qt) (List.range nQ))
    (hr : List.Perm (flattenT rt) (List.range nR))
    (hinj : ∀ q < nQ, ∀ i < nR, ∀ j < nR, i ≠ j → v q i ≠ v q j) :
    ∀ x < nQ, dualSearch k v pB qt rt x = naiveList k (v x) nR := by
  intro x hx
  have hxm : x ∈ flattenT qt := hq.mem_iff.2 (List.mem_range.2 hx)
  have hndq : (flattenT qt).Nodup := hq.nodup_iff.2 (List.nodup_range nQ)
  have hndr : (flattenT rt).Nodup := hr.nodup_iff.2 (List.nodup_range nR)
  have hrsub : ∀ i ∈ flattenT rt, i < nR := fun i hi => List.mem_range.1 (hr.mem_iff.1 hi)
  have hdx : ∀ y, distinctVals (pairEntries v y qt rt) := by
    intro y
    by_cases hy : y ∈ flattenT qt
    · rw [pairEntries, if_pos hy]
      exact distinct_entries_of (v y) hrsub hndr
        (hinj y (List.mem_range.1 (hq.mem_iff.1 hy)))
    · rw [pairEntries, if_neg hy]
      exact List.Pairwise.nil
  have h1 := dualSearch_root_topK k v pB hpB qt rt hndq hdx x
  rw [h1, pairEntries, if_pos hxm]
  have hdr : distinctVals (entriesOf (v x) (List.range nR)) :=
    distinct_entries_of (v x) (fun i hi => List.mem_range.1 hi) (List.nodup_range nR)
      (hinj x hx)
  have hdt : distinctVals (entriesOf (v x) (flattenT rt)) :=
    distinct_entries_of (v x) hrsub hndr (hinj x hx)
  rw [naiveList_topK k (v x) nR hdr]
  exact topKList_eq_of_perm (entriesOf_perm (v x) hr) hdt

def maxQ (l : List ℚ) : ℚ := l.foldr max 0

theorem le_maxQ : ∀ {l : List ℚ} {x : ℚ}, x ∈ l → x ≤ maxQ l
  | a :: as, x, hx => by
      rcases List.mem_cons.1 hx with rfl | hx
      · exact le_max_left _ _
      · exact le_trans (le_maxQ hx) (le_max_right _ _)

/-- A computable admissible node bound: the largest kernel value under the
node (used to instantiate the abstract bound in witnesses). -/
def maxBound (v : Nat → ℚ) (t : CTree) : ℚ := maxQ ((flattenT t).map v)

theorem maxBound_valid (v : Nat → ℚ) : ∀ (t : CTree), ∀ i ∈ flattenT t, v i ≤ maxBound v t :=
  fun _ i hi => le_maxQ (List.mem_map.2 ⟨i, hi, rfl⟩)

/-- A computable admissible pair bound: the largest kernel value between the
two nodes' points. -/
def maxPairBound (v : Nat → Nat → ℚ) (a b : CTree) : ℚ :=
  maxQ ((flattenT a).map (fun q => maxQ ((flattenT b).map (v q))))

theorem maxPairBound_valid (v : Nat → Nat → ℚ) :
    ∀ (a b : CTree), ∀ q ∈ flattenT a, ∀ r ∈ flattenT b, v q r ≤ maxPairBound v a b := by
  intro a b q hq r hr
  refine le_trans (le_maxQ (List.mem_map.2 ⟨r, hr, rfl⟩)) ?_
  exact le_maxQ (List.mem_map.2 ⟨q, hq, rfl⟩)

theorem stSearch_sorted (k : Nat) (v : Nat → ℚ) (B : CTree → ℚ) :
    ∀ (n : Nat) (ts : List CTree) (acc : List Entry), sizeL ts ≤ n → sortedDesc acc →
      sortedDesc (stSearch k v B ts acc) := by
  intro n
  induction n with
  | zero =>
      intro ts acc hn hs
      cases ts with
      | nil => simpa [stSearch] using hs
      | cons t ts' =>
          exfalso
          have := sizeT_pos t
          simp only [sizeL, List.map_cons, List.sum_cons] at hn
          omega
  | succ n ih =>
      intro ts acc hn hs
      cases ts with
      | nil => simpa [stSearch] using hs
      | cons t ts' =>
          have hsz : sizeL ts' ≤ n := by
            have := sizeT_pos t
            simp only [sizeL, List.map_cons, List.sum_cons] at hn ⊢
            omega
          have hszf : sizeL (insSortBy B t.children ++ ts') ≤ n := by
            have h1 : sizeL (insSortBy B t.children) = sizeL t.children :=
              sizeL_perm (insSortBy_perm B t.children)
            have h2 := sizeL_children_lt t
            simp only [sizeL, List.map_append, List.sum_append, List.map_cons,
              List.sum_cons] at hn h1 h2 ⊢
            omega
          by_cases hp : acc.length = k ∧ B t ≤ lastVal acc
          · rw [show stSearch k v B (t :: ts') acc = stSearch k v B ts' acc from by
              rw [stSearch, if_pos hp]]
            exact ih ts' acc hsz hs
          · rw [show stSearch k v B (t :: ts') acc = stSearch k v B
                (insSortBy B t.children ++ ts') (offer k acc (t.rep, v t.rep)).1 from by
              rw [stSearch, if_neg hp]]
            exact ih _ _ hszf (offer_sorted hs)

theorem stSearch_length (k : Nat) (v : Nat → ℚ) (B : CTree → ℚ) :
    ∀ (n : Nat) (ts : List CTree) (acc : List Entry), sizeL ts ≤ n → acc.length ≤ k →
      (stSearch k v B ts acc).length =
        min k (acc.length + (ts.flatMap flattenT).length) := by
  intro n
  induction n with
  | zero =>
      intro ts acc hn hl
      cases ts with
      | nil =>
          simp only [stSearch, List.flatMap_nil, List.length_nil, Nat.add_zero]
          omega
      | cons t ts' =>
          exfalso
          have := sizeT_pos t
          simp only [sizeL, List.map_cons, List.sum_cons] at hn
          omega
  | succ n ih =>
      intro ts acc hn hl
      cases ts with
      | nil =>
          simp only [stSearch, List.flatMap_nil, List.length_nil, Nat.add_zero]
          omega
      | cons t ts' =>
          have hsz : sizeL ts' ≤ n := by
            have := sizeT_pos t
            simp only [sizeL, List.map_cons, List.sum_cons] at hn ⊢
            omega
          have hszf : sizeL (insSortBy B t.children ++ ts') ≤ n := by
            have h1 : sizeL (insSortBy B t.children) = sizeL t.children :=
              sizeL_perm (insSortBy_perm B t.children)
            have h2 := sizeL_children_lt t
            simp only [sizeL, List.map_append, List.sum_append, List.map_cons,
              List.sum_cons] at hn h1 h2 ⊢
            omega
          have hflat : ((t :: ts').flatMap flattenT).length =
              1 + (t.children.flatMap flattenT).length + (ts'.flatMap flattenT).length := by
            rw [List.flatMap_cons, List.length_append, flattenT_eq t, List.length_cons]
            omega
          by_cases hp : acc.length = k ∧ B t ≤ lastVal acc
          · rw [show stSearch k v B (t :: ts') acc = stSearch k v B ts' acc from by
              rw [stSearch, if_pos hp]]
            rw [ih ts' acc hsz hl, hflat]
            omega
          · rw [show stSearch k v B (t :: ts') acc = stSearch k v B
                (insSortBy B t.children ++ ts') (offer k acc (t.rep, v t.rep)).1 from by
              rw [stSearch, if_neg hp]]
            have hofflen : (offer k acc (t.rep, v t.rep)).1.length = min k (acc.length + 1) :=
              offer_length hl
            rw [ih _ _ hszf (by omega), hofflen, hflat]
            have hfront : ((insSortBy B t.children ++ ts').flatMap flattenT).length =
                (t.children.flatMap flattenT).length + (ts'.flatMap flattenT).length := by
              rw [List.flatMap_append, List.length_append]
              have := (List.Perm.flatMap_right flattenT (insSortBy_perm B t.children)).length_eq
              omega
            rw [hfront]
            omega

theorem insertSorted_lex {e : Entry} :
    ∀ {l : List Entry}, lexSorted l → (∀ x ∈ l, x.1 < e.1) →
      lexSorted (insertSorted e l)
  | [], _, _ => by
      simp [insertSorted, insKeyed, lexSorted]
  | x :: xs, hl, hidx => by
      rcases List.pairwise_cons.1 hl with ⟨hx, hxs⟩
      by_cases hc : x.2 < e.2
      · rw [show insertSorted e (x :: xs) = e :: x :: xs from by
          simp [insertSorted, insKeyed, hc]]
        refine List.pairwise_cons.2 ⟨?_, hl⟩
        intro z hz
        rcases List.mem_cons.1 hz with rfl | hz
        · exact Or.inl hc
        · rcases hx z hz with h | h
          · exact Or.inl (lt_trans h hc)
          · exact Or.inl (h.1 ▸ hc)
      · rw [show insertSorted e (x :: xs) = x :: insertSorted e xs from by
          simp [insertSorted, insKeyed, hc]]
        refine List.pairwise_cons.2 ⟨?_, insertSorted_lex hxs
          (fun z hz => hidx z (List.mem_cons_of_mem _ hz))⟩
        intro z hz
        rcases mem_insertSorted hz with rfl | hz
        · rcases lt_or_eq_of_le (le_of_not_lt hc) with h | h
          · exact Or.inl h
          · exact Or.inr ⟨h.symm, hidx x (List.mem_cons_self _ _)⟩
        · exact hx z hz

theorem offer_lex {k : Nat} {l : List Entry} {e : Entry}
    (hl : lexSorted l) (hidx : ∀ x ∈ l, x.1 < e.1) : lexSorted (offer k l e).1 := by
  by_cases hlt : l.length < k
  · simp only [offer, if_pos hlt]
    exact insertSorted_lex hl hidx
  · cases hgl : l.getLast? with
    | none => simpa [offer, if_neg hlt, hgl] using hl
    | some m =>
        by_cases hv : m.2 < e.2
        · simp only [offer, if_neg hlt, hgl, if_pos hv]
          exact insertSorted_lex (List.Pairwise.sublist (List.dropLast_sublist l) hl)
            (fun z hz => hidx z (List.Sublist.mem hz (List.dropLast_sublist l)))
        · simpa [offer, if_neg hlt, hgl, if_neg hv] using hl

theorem foldl_offer_lex (k : Nat) (v : Nat → ℚ) :
    ∀ (idxs : List Nat) (acc : List Entry), lexSorted acc →
      (∀ x ∈ acc, ∀ i ∈ idxs, x.1 < i) → List.Pairwise (· < ·) idxs →
      lexSorted (idxs.foldl (fun acc i => (offer k acc (i, v i)).1) acc)
  | [], acc, hl, _, _ => hl
  | i :: rest, acc, hl, hidx, hp => by
      rcases List.pairwise_cons.1 hp with ⟨hi, hrest⟩
      rw [List.foldl_cons]
      refine foldl_offer_lex k v rest _ ?_ ?_ hrest
      · exact offer_lex hl (fun x hx => hidx x hx i (List.mem_cons_self _ _))
      · intro x hx j hj
        rcases mem_offer hx with rfl | hx
        · exact hi j hj
        · exact hidx x hx j (List.mem_cons_of_mem _ hj)

theorem naiveList_lex (k : Nat) (v : Nat → ℚ) (n : Nat) : lexSorted (naiveList k v n) := by
  refine foldl_offer_lex k v (List.range n) [] List.Pairwise.nil ?_ (List.pairwise_lt_range n)
  intro x hx
  simp at hx

theorem foldl_offer_idx_length (k : Nat) (v : Nat → ℚ) :
    ∀ (idxs : List Nat) (acc : List Entry), acc.length ≤ k →
      (idxs.foldl (fun acc i => (offer k acc (i, v i)).1) acc).length =
        min k (acc.length + idxs.length)
  | [], acc, hl => by
      simp
      omega
  | i :: rest, acc, hl => by
      rw [List.foldl_cons]
      have h1 : (offer k acc (i, v i)).1.length = min k (acc.length + 1) := offer_length hl
      rw [foldl_offer_idx_length k v rest _ (by rw [h1]; omega), h1]
      simp only [List.length_cons]
      omega

theorem naiveList_length (k : Nat) (v : Nat → ℚ) (n : Nat) :
    (naiveList k v n).length = min k n := by
  rw [naiveList, foldl_offer_idx_length k v (List.range n) [] (by simp)]
  simp

theorem dualRun_sorted (k : Nat) (v : Nat → Nat → ℚ) (pB : CTree → CTree → ℚ) :
    ∀ (n : Nat) (qt rt : CTree) (st : QLists), sizeT qt + sizeT rt ≤ n →
      (∀ q, sortedDesc (st q)) → ∀ q, sortedDesc (dualRun k v pB qt rt st q) := by
  intro n
  induction n with
  | zero =>
      intro qt rt st hsz
      exfalso
      have := sizeT_pos qt
      have := sizeT_pos rt
      omega
  | succ n ih =>
      intro qt rt st hsz hst q
      rw [dualRun_eq]
      by_cases hpr : ∀ y ∈ flattenT qt, (st y).length = k ∧ pB qt rt ≤ lastVal (st y)
      · rw [if_pos hpr]
        exact hst q
      · rw [if_neg hpr]
        have hfold : ∀ (pl : List (CTree × CTree)),
            (∀ p ∈ pl, sizeT p.1 + sizeT p.2 ≤ n) →
            ∀ (st2 : QLists), (∀ y, sortedDesc (st2 y)) →
            ∀ y, sortedDesc
              (pl.foldl (fun s pr => dualRun k v pB pr.1 pr.2 s) st2 y) := by
          intro pl
          induction pl with
          | nil => intro _ st2 hst2 y; exact hst2 y
          | cons pr rest ihl =>
              intro hszs st2 hst2 y
              rw [List.foldl_cons]
              refine ihl (fun p hp => hszs p (List.mem_cons_of_mem _ hp)) _ ?_ y
              intro z
              exact ih pr.1 pr.2 st2 (hszs pr (List.mem_cons_self _ _)) hst2 z
        refine hfold _ ?_ _ ?_ q
        · intro p hp
          have hm := (insSortBy_perm (fun p => pB p.1 p.2) (pairsOf qt rt)).mem_iff.1 hp
          have := pairsOf_size hm
          omega
        · intro z
          rw [updateQ]
          by_cases hz : z = qt.rep
          · rw [if_pos hz]
            exact offer_sorted (hst qt.rep)
          · rw [if_neg hz]
            exact hst z

theorem getBoundRec_preserve (compute : CTree → ℚ) (c : Nat → Option ℚ) (t : CTree)
    {i : Nat} {b : ℚ} (h : c i = some b) : (getBoundRec compute c t).2 i = some b := by
  unfold getBoundRec
  cases hc : c t.rep with
  | some b2 => simpa using h
  | none =>
      by_cases hi : i = t.rep
      · rw [hi] at h
        rw [h] at hc
        exact absurd hc (by simp)
      · simpa [hi] using h

theorem getBoundRec_hit (compute : CTree → ℚ) (c : Nat → Option ℚ) (t : CTree)
    {b : ℚ} (h : c t.rep = some b) : (getBoundRec compute c t).1 = b := by
  unfold getBoundRec
  rw [h]

theorem stSearchRec_cache (k : Nat) (v : Nat → ℚ) (g : ℚ → ℚ) (compute : CTree → ℚ) :
    ∀ (n : Nat) (ts : List CTree) (acc : List Entry) (c : Nat → Option ℚ),
      sizeL ts ≤ n → ∀ {i : Nat} {b : ℚ}, c i = some b →
      (stSearchRec k v g compute ts acc c).2 i = some b := by
  intro n
  induction n with
  | zero =>
      intro ts acc c hn i b h
      cases ts with
      | nil => simpa [stSearchRec] using h
      | cons t ts' =>
          exfalso
          have := sizeT_pos t
          simp only [sizeL, List.map_cons, List.sum_cons] at hn
          omega
  | succ n ih =>
      intro ts acc c hn i b h
      cases ts with
      | nil => simpa [stSearchRec] using h
      | cons t ts' =>
          have hsz : sizeL ts' ≤ n := by
            have := sizeT_pos t
            simp only [sizeL, List.map_cons, List.sum_cons] at hn ⊢
            omega
          have hszf : sizeL (t.children ++ ts') ≤ n := by
            have h2 := sizeL_children_lt t
            simp only [sizeL, List.map_append, List.sum_append, List.map_cons,
              List.sum_cons] at hn h2 ⊢
            omega
          have hpres := getBoundRec_preserve compute c t h
          by_cases hp : acc.length = k ∧ g (getBoundRec compute c t).1 ≤ lastVal acc
          · rw [show stSearchRec k v g compute (t :: ts') acc c =
                stSearchRec k v g compute ts' acc (getBoundRec compute c t).2 from by
              rw [stSearchRec]
              rw [if_pos hp]]
            exact ih ts' acc _ hsz hpres
          · rw [show stSearchRec k v g compute (t :: ts') acc c =
                stSearchRec k v g compute (t.children ++ ts')
                  (offer k acc (t.rep, v t.rep)).1 (getBoundRec compute c t).2 from by
              rw [stSearchRec]
              rw [if_neg hp]]
            exact ih _ _ _ hszf hpres

theorem searchAllRec_cache (k : Nat) (v : Nat → Nat → ℚ) (g : Nat → ℚ → ℚ)
    (compute : CTree → ℚ) (root : CTree) :
    ∀ (queries : List Nat) (c : Nat → Option ℚ) {i : Nat} {b : ℚ}, c i = some b →
      (searchAllRec k v g compute root queries c).2 i = some b
  | [], c, i, b, h => h
  | q :: qs, c, i, b, h => by
      rw [searchAllRec]
      exact searchAllRec_cache k v g compute root qs _
        (stSearchRec_cache k (v q) (g q) compute (sizeL [root]) [root] [] c (le_refl _) h)

/-- Modelled from the spec (§4.1 Metric Embedding): the dissimilarity the
index is built with, `d(x,y) = sqrt(max(K(x,x) - 2K(x,y) + K(y,y), 0))`,
clamped at zero so it is defined even for a negative radicand. -/
noncomputable def ipMetric (K : Nat → Nat → ℝ) (x y : Nat) : ℝ :=
  Real.sqrt (max (K x x - 2 * K x y + K y y) 0)

def maxR (l : List ℝ) : ℝ := l.foldr max 0

theorem le_maxR : ∀ {l : List ℝ} {x : ℝ}, x ∈ l → x ≤ maxR l
  | a :: as, x, hx => by
      rcases List.mem_cons.1 hx with rfl | hx
      · exact le_max_left _ _
      · exact le_trans (le_maxR hx) (le_max_right _ _)

theorem maxR_nonneg : ∀ (l : List ℝ), 0 ≤ maxR l
  | [] => le_refl 0
  | a :: as => le_trans (maxR_nonneg as) (le_max_right _ _)

end FastMKS

namespace FastMKS

variable {E : Type} [NormedAddCommGroup E] [InnerProductSpace ℝ E]

/-- Modelled from the spec (§2, §4.3): a valid kernel presented through the
feature map `φ` that the Metric Embedding implicitly works in:
`K(a,b) = ⟪φ a, φ b⟫`. -/
noncomputable def kerOf (φ : Nat → E) (a b : Nat) : ℝ := (inner (φ a) (φ b) : ℝ)

/-- The furthest-descendant distance of a node in the embedded metric, one
of the quantities cached in the node's Bound Record (spec §3). -/
noncomputable def lamT (φ : Nat → E) (t : CTree) : ℝ :=
  maxR ((flattenT t).map (fun i => dist (φ t.rep) (φ i)))

/-- Modelled from the spec (§4.3 `GetBound`): the upper bound on `K(q, x)`
over all points x held under the node, derived from the node's
representative kernel value, the query's self-kernel and the node's
furthest-descendant distance. -/
noncomputable def getBound (φ : Nat → E) (q : Nat) (t : CTree) : ℝ :=
  kerOf φ q t.rep + Real.sqrt (kerOf φ q q) * lamT φ t

/-- Modelled from the spec (§4.6): the dual-tree pair bound on `K(q, r)` for
q under the query node and r under the reference node, derived from both
nodes' Bound Records and radii. -/
noncomputable def pairBound (φ : Nat → E) (a b : CTree) : ℝ :=
  kerOf φ a.rep b.rep + Real.sqrt (kerOf φ a.rep a.rep) * lamT φ b +
    Real.sqrt (kerOf φ b.rep b.rep) * lamT φ a + lamT φ a * lamT φ b

theorem sqrt_kerOf_self (φ : Nat → E) (q : Nat) :
    Real.sqrt (kerOf φ q q) = ‖φ q‖ := by
  rw [kerOf, real_inner_self_eq_norm_mul_norm]
  exact Real.sqrt_mul_self (norm_nonneg _)

theorem dist_rep_le_lamT (φ : Nat → E) {t : CTree} {x : Nat} (hx : x ∈ flattenT t) :
    dist (φ t.rep) (φ x) ≤ lamT φ t :=
  le_maxR (List.mem_map.2 ⟨x, hx, rfl⟩)

theorem lamT_nonneg (φ : Nat → E) (t : CTree) : 0 ≤ lamT φ t :=
  maxR_nonneg _

theorem getBound_valid (φ : Nat → E) (q : Nat) (t : CTree) :
    ∀ x ∈ flattenT t, kerOf φ q x ≤ getBound φ q t := by
  intro x hx
  have hsplit : kerOf φ q x = kerOf φ q t.rep + (inner (φ q) (φ x - φ t.rep) : ℝ) := by
    rw [kerOf, kerOf, ← inner_add_right]
    congr 1
    abel
  rw [hsplit, getBound]
  refine add_le_add_left ?_ _
  refine le_trans (real_inner_le_norm _ _) ?_
  rw [← sqrt_kerOf_self φ q]
  refine mul_le_mul_of_nonneg_left ?_ (Real.sqrt_nonneg _)
  rw [← dist_eq_norm, dist_comm]
  exact dist_rep_le_lamT φ hx

theorem pairBound_valid (φ : Nat → E) (a b : CTree) :
    ∀ q ∈ flattenT a, ∀ r ∈ flattenT b, kerOf φ q r ≤ pairBound φ a b := by
  intro q hq r hr
  have hsplit : kerOf φ q r = kerOf φ a.rep b.rep +
      (inner (φ a.rep) (φ r - φ b.rep) : ℝ) +
      (inner (φ q - φ a.rep) (φ b.rep) : ℝ) +
      (inner (φ q - φ a.rep) (φ r - φ b.rep) : ℝ) := by
    have hq' : φ q = φ a.rep + (φ q - φ a.rep) := by abel
    have hr' : φ r = φ b.rep + (φ r - φ b.rep) := by abel
    rw [kerOf, kerOf]
    nth_rewrite 1 [hq', hr']
    rw [inner_add_left, inner_add_right, inner_add_right]
    ring
  rw [hsplit, pairBound]
  have h1 : (inner (φ a.rep) (φ r - φ b.rep) : ℝ) ≤
      Real.sqrt (kerOf φ a.rep a.rep) * lamT φ b := by
    refine le_trans (real_inner_le_norm _ _) ?_
    rw [← sqrt_kerOf_self φ a.rep]
    refine mul_le_mul_of_nonneg_left ?_ (Real.sqrt_nonneg _)
    rw [← dist_eq_norm, dist_comm]
    exact dist_rep_le_lamT φ hr
  have h2 : (inner (φ q - φ a.rep) (φ b.rep) : ℝ) ≤
      Real.sqrt (kerOf φ b.rep b.rep) * lamT φ a := by
    refine le_trans (real_inner_le_norm _ _) ?_
    rw [mul_comm, ← sqrt_kerOf_self φ b.rep]
    refine mul_le_mul_of_nonneg_left ?_ (Real.sqrt_nonneg _)
    rw [← dist_eq_norm, dist_comm]
    exact dist_rep_le_lamT φ hq
  have h3 : (inner (φ q - φ a.rep) (φ r - φ b.rep) : ℝ) ≤ lamT φ a * lamT φ b := by
    refine le_trans (real_inner_le_norm _ _) ?_
    refine mul_le_mul ?_ ?_ (norm_nonneg _) (lamT_nonneg φ a)
    · rw [← dist_eq_norm, dist_comm]
      exact dist_rep_le_lamT φ hq
    · rw [← dist_eq_norm, dist_comm]
      exact dist_rep_le_lamT φ hr
  have := add_le_add (add_le_add (add_le_add (le_refl (kerOf φ a.rep b.rep)) h1) h2) h3
  exact this

end FastMKS

namespace mlpack

namespace ann

namespace TanhFunction

/-- Embedded from `tanh_function.hpp` (lines 33-36): `fn(x) = std::tanh(x)`. -/
noncomputable def fn (x : ℝ) : ℝ := Real.tanh x

/-- Embedded from `tanh_function.hpp` (lines 56-59): `deriv(y) = 1 - y^2`,
taking the activation output `y`. -/
noncomputable def deriv (y : ℝ) : ℝ := 1 - y ^ 2

/-- Embedded from `tanh_function.hpp` (lines 79-82): `inv(y) = std::atanh(y)`,
the inverse hyperbolic tangent written out as `log((1+y)/(1-y)) / 2`. -/
noncomputable def inv (y : ℝ) : ℝ := Real.log ((1 + y) / (1 - y)) / 2

theorem one_add_tanh (x : ℝ) : 1 + Real.tanh x = Real.exp x / Real.cosh x := by
  have hc : Real.cosh x ≠ 0 := ne_of_gt (Real.cosh_pos x)
  rw [Real.tanh_eq_sinh_div_cosh, ← Real.cosh_add_sinh x]
  field_simp

theorem one_sub_tanh (x : ℝ) : 1 - Real.tanh x = Real.exp (-x) / Real.cosh x := by
  have hc : Real.cosh x ≠ 0 := ne_of_gt (Real.cosh_pos x)
  rw [Real.tanh_eq_sinh_div_cosh, ← Real.cosh_sub_sinh x]
  field_simp

/-- C9: `TanhFunction::inv` is the exact inverse hyperbolic tangent, so
`inv (fn x) = x` for every real x in exact arithmetic. -/
theorem inv_fn (x : ℝ) : inv (fn x) = x := by
  have hc : Real.cosh x ≠ 0 := ne_of_gt (Real.cosh_pos x)
  have he : Real.exp (-x) ≠ 0 := Real.exp_ne_zero _
  rw [inv, fn, one_add_tanh, one_sub_tanh]
  have hratio : Real.exp x / Real.cosh x / (Real.exp (-x) / Real.cosh x) =
      Real.exp (x - -x) := by
    rw [Real.exp_sub]
    field_simp
  rw [hratio, Real.log_exp]
  ring

theorem hasDerivAt_fn (x : ℝ) : HasDerivAt fn (1 - Real.tanh x ^ 2) x := by
  have hc : Real.cosh x ≠ 0 := ne_of_gt (Real.cosh_pos x)
  have hd := (Real.hasDerivAt_sinh x).div (Real.hasDerivAt_cosh x) hc
  have heq : (Real.cosh x * Real.cosh x - Real.sinh x * Real.sinh x) / Real.cosh x ^ 2 =
      1 - Real.tanh x ^ 2 := by
    rw [Real.tanh_eq_sinh_div_cosh]
    field_simp
    have := Real.cosh_sq_sub_sinh_sq x
    nlinarith [this]
  rw [heq] at hd
  have hfe : fn = fun y => Real.sinh y / Real.cosh y := by
    funext y
    rw [fn, Real.tanh_eq_sinh_div_cosh]
  rw [hfe]
  exact hd

end TanhFunction

end ann

end mlpack

namespace FastMKS

theorem toDense_cons (j : Nat) (a : ℚ) (s : SpVec) (i : Nat) :
    toDense ((j, a) :: s) i = if i = j then a else toDense s i := by
  unfold toDense lookupSp
  by_cases h : i = j
  · rw [if_pos h, List.find?_cons_of_pos _ (by simp [h])]
  · rw [if_neg h, List.find?_cons_of_neg _ (by simp [Ne.symm h])]

theorem toDense_not_mem {s : SpVec} {i : Nat} (h : i ∉ s.map (fun p => p.1)) :
    toDense s i = 0 := by
  unfold toDense lookupSp
  cases hf : s.find? (fun p => p.1 == i) with
  | none => rfl
  | some p =>
      exfalso
      apply h
      have h1 := List.find?_some hf
      have h2 := List.mem_of_find?_eq_some hf
      refine List.mem_map.2 ⟨p, h2, ?_⟩
      simpa using h1

theorem sum_toDense_mul (d : Nat) (g : Nat → ℚ) :
    ∀ (s : SpVec), WfSp d s →
      ∑ i ∈ Finset.range d, toDense s i * g i =
        s.foldr (fun p acc => p.2 * g p.1 + acc) 0
  | [], _ => by
      refine Finset.sum_eq_zero ?_
      intro i _
      rw [show toDense [] i = 0 from rfl]
      ring
  | (j, a) :: s, hwf => by
      obtain ⟨hnd, hlt⟩ := hwf
      rw [List.map_cons] at hnd
      rcases List.nodup_cons.1 hnd with ⟨hj, hnds⟩
      have hjd : j ∈ Finset.range d :=
        Finset.mem_range.2 (hlt (j, a) (List.mem_cons_self _ _))
      have hzero : toDense s j = 0 := toDense_not_mem hj
      have hsplit1 : ∑ i ∈ Finset.range d, toDense ((j, a) :: s) i * g i =
          toDense ((j, a) :: s) j * g j +
            ∑ i ∈ (Finset.range d).erase j, toDense ((j, a) :: s) i * g i :=
        (Finset.add_sum_erase _ _ hjd).symm
      have hsplit2 : ∑ i ∈ Finset.range d, toDense s i * g i =
          toDense s j * g j + ∑ i ∈ (Finset.range d).erase j, toDense s i * g i :=
        (Finset.add_sum_erase _ _ hjd).symm
      have hcongr : ∑ i ∈ (Finset.range d).erase j, toDense ((j, a) :: s) i * g i =
          ∑ i ∈ (Finset.range d).erase j, toDense s i * g i := by
        refine Finset.sum_congr rfl ?_
        intro i hi
        rw [toDense_cons, if_neg (Finset.ne_of_mem_erase hi)]
      have hih := sum_toDense_mul d g s ⟨hnds, fun p hp => hlt p (List.mem_cons_of_mem _ hp)⟩
      rw [List.foldr_cons, ← hih, hsplit2, hzero, hsplit1, hcongr, toDense_cons, if_pos rfl]
      ring

theorem dotSp_eq_dotDense {d : Nat} (s₁ s₂ : SpVec) (h₁ : WfSp d s₁) :
    dotSp s₁ s₂ = dotDense d (toDense s₁) (toDense s₂) := by
  rw [dotDense, sum_toDense_mul d (toDense s₂) s₁ h₁]
  rfl

end FastMKS

namespace FastMKS

theorem dualRun_length (k : Nat) (v : Nat → Nat → ℚ) (pB : CTree → CTree → ℚ) :
    ∀ (n : Nat) (qt rt : CTree), sizeT qt + sizeT rt ≤ n →
      (flattenT qt).Nodup →
      ∀ (st : QLists), (∀ y, (st y).length ≤ k) →
      ∀ q, (dualRun k v pB qt rt st q).length =
        min k ((st q).length + (pairEntries v q qt rt).length) := by
  intro n
  induction n with
  | zero =>
      intro qt rt hsz
      exfalso
      have h1 := sizeT_pos qt
      have h2 := sizeT_pos rt
      omega
  | succ n ih =>
      intro qt rt hsz hnd st hle q
      rw [dualRun_eq]
      by_cases hpr : ∀ y ∈ flattenT qt, (st y).length = k ∧ pB qt rt ≤ lastVal (st y)
      · rw [if_pos hpr]
        by_cases hq : q ∈ flattenT qt
        · have hfull := (hpr q hq).1
          rw [pairEntries, if_pos hq]
          omega
        · rw [pairEntries, if_neg hq]
          simp only [List.length_nil]
          have := hle q
          omega
      · rw [if_neg hpr]
        have hst1 : ∀ y,
            ((updateQ st qt.rep (offer k (st qt.rep) (rt.rep, v qt.rep rt.rep)).1) y).length =
              if y = qt.rep then min k ((st qt.rep).length + 1) else (st y).length := by
          intro y
          rw [updateQ]
          by_cases hy : y = qt.rep
          · rw [if_pos hy, if_pos hy]
            exact offer_length (hle qt.rep)
          · rw [if_neg hy, if_neg hy]
        have hst1le : ∀ y,
            ((updateQ st qt.rep (offer k (st qt.rep) (rt.rep, v qt.rep rt.rep)).1) y).length ≤
              k := by
          intro y
          rw [hst1 y]
          by_cases hy : y = qt.rep
          · rw [if_pos hy]
            omega
          · rw [if_neg hy]
            exact hle y
        have hfold : ∀ (pl : List (CTree × CTree)),
            (∀ p ∈ pl, sizeT p.1 + sizeT p.2 ≤ n) →
            (∀ p ∈ pl, (flattenT p.1).Nodup) →
            ∀ (st2 : QLists), (∀ y, (st2 y).length ≤ k) →
            ∀ y, (pl.foldl (fun s pr => dualRun k v pB pr.1 pr.2 s) st2 y).length =
              min k ((st2 y).length + (pairListEntries v y pl).length) := by
          intro pl
          induction pl with
          | nil =>
              intro _ _ st2 hle2 y
              simp only [List.foldl_nil, pairListEntries, List.flatMap_nil, List.length_nil]
              have := hle2 y
              omega
          | cons pr rest ihl =>
              intro hszs hnds st2 hle2 y
              rw [List.foldl_cons]
              have hhead : ∀ z, (dualRun k v pB pr.1 pr.2 st2 z).length =
                  min k ((st2 z).length + (pairEntries v z pr.1 pr.2).length) :=
                fun z => ih pr.1 pr.2 (hszs pr (List.mem_cons_self _ _))
                  (hnds pr (List.mem_cons_self _ _)) st2 hle2 z
              have hheadle : ∀ z, (dualRun k v pB pr.1 pr.2 st2 z).length ≤ k := by
                intro z
                rw [hhead z]
                omega
              rw [ihl (fun p hp => hszs p (List.mem_cons_of_mem _ hp))
                (fun p hp => hnds p (List.mem_cons_of_mem _ hp)) _ hheadle y, hhead y]
              simp only [pairListEntries, List.flatMap_cons, List.length_append]
              have := hle2 y
              omega
        have hout := hfold (insSortBy (fun p => pB p.1 p.2) (pairsOf qt rt))
          (fun p hp => by
            have hm := (insSortBy_perm (fun p => pB p.1 p.2) (pairsOf qt rt)).mem_iff.1 hp
            have := pairsOf_size hm
            omega)
          (fun p hp => by
            have hm := (insSortBy_perm (fun p => pB p.1 p.2) (pairsOf qt rt)).mem_iff.1 hp
            exact List.Nodup.sublist
              (flattenT_sublist_of_subnode (pairsOf_mem_fst hm)) hnd)
          _ hst1le q
        rw [hout, hst1 q]
        have hlen2 : (pairListEntries v q
              (insSortBy (fun p => pB p.1 p.2) (pairsOf qt rt))).length =
            (pairListEntries v q (pairsOf qt rt)).length := by
          rw [pairListEntries, pairListEntries]
          exact (List.Perm.flatMap_right (fun p => pairEntries v q p.1 p.2)
            (insSortBy_perm (fun p => pB p.1 p.2) (pairsOf qt rt))).length_eq
        have hlen1 : (pairEntries v q qt rt).length =
            (if q = qt.rep then 1 else 0) +
              (pairListEntries v q (pairsOf qt rt)).length := by
          rw [← pairListEntries_decomp v q qt rt hnd, List.length_append]
          congr 1
          by_cases hq : q = qt.rep
          · rw [if_pos hq, if_pos hq]
            rfl
          · rw [if_neg hq, if_neg hq]
            rfl
        rw [hlen2, hlen1]
        by_cases hq : q = qt.rep
        · rw [if_pos hq, if_pos hq, hq]
          have := hle qt.rep
          omega
        · rw [if_neg hq, if_neg hq]
          omega

theorem dualSearch_length (k : Nat) (v : Nat → Nat → ℚ) (pB : CTree → CTree → ℚ)
    (qt rt : CTree) (nQ nR : Nat)
    (hq : List.Perm (flattenT qt) (List.range nQ))
    (hr : List.Perm (flattenT rt) (List.range nR)) :
    ∀ q < nQ, (dualSearch k v pB qt rt q).length = min k nR := by
  intro q hq'
  have hnd : (flattenT qt).Nodup := hq.nodup_iff.2 (List.nodup_range nQ)
  have hqm : q ∈ flattenT qt := hq.mem_iff.2 (List.mem_range.2 hq')
  have h := dualRun_length k v pB (sizeT qt + sizeT rt) qt rt (le_refl _) hnd
    (fun _ => []) (fun y => by simp) q
  rw [dualSearch, h, pairEntries, if_pos hqm]
  have hlen : (entriesOf (v q) (flattenT rt)).length = nR := by
    rw [entriesOf, List.length_map, hr.length_eq, List.length_range]
  rw [hlen]
  simp

/-- Modelled from the spec (§4.3, §4.6): the dual-tree traversal threading
the reference tree's lazily computed Bound Record cache.  Each pair visit
obtains the reference node's record through `getBoundRec` (computing it with
`compute` and storing it on a miss) and combines it with the query node
through `g` to form the pair bound used for pruning; child pairs are
visited best-first by the pair bound value. -/
def dualRunRec (k : Nat) (v : Nat → Nat → ℚ) (g : CTree → ℚ → ℚ)
    (compute : CTree → ℚ) (qt rt : CTree) (st : QLists) (c : Nat → Option ℚ) :
    QLists × (Nat → Option ℚ) :=
  let bc := getBoundRec compute c rt
  if ∀ q ∈ flattenT qt, (st q).length = k ∧ g qt bc.1 ≤ lastVal (st q) then (st, bc.2)
  else
    let st1 := updateQ st qt.rep (offer k (st qt.rep) (rt.rep, v qt.rep rt.rep)).1
    (insSortBy (fun p => g p.1 (compute p.2)) (pairsOf qt rt)).attach.foldl
      (fun s p => dualRunRec k v g compute p.1.1 p.1.2 s.1 s.2) (st1, bc.2)
termination_by sizeT qt + sizeT rt
decreasing_by
  have hmem : p.1 ∈ pairsOf qt rt :=
    (insSortBy_perm (fun p => g p.1 (compute p.2)) (pairsOf qt rt)).mem_iff.1 p.2
  exact pairsOf_size hmem

theorem dualRunRec_eq (k : Nat) (v : Nat → Nat → ℚ) (g : CTree → ℚ → ℚ)
    (compute : CTree → ℚ) (qt rt : CTree) (st : QLists) (c : Nat → Option ℚ) :
    dualRunRec k v g compute qt rt st c =
      if ∀ q ∈ flattenT qt, (st q).length = k ∧
          g qt (getBoundRec compute c rt).1 ≤ lastVal (st q) then
        (st, (getBoundRec compute c rt).2)
      else
        (insSortBy (fun p => g p.1 (compute p.2)) (pairsOf qt rt)).foldl
          (fun s pr => dualRunRec k v g compute pr.1 pr.2 s.1 s.2)
          (updateQ st qt.rep (offer k (st qt.rep) (rt.rep, v qt.rep rt.rep)).1,
            (getBoundRec compute c rt).2) := by
  rw [dualRunRec]
  by_cases h : ∀ q ∈ flattenT qt, (st q).length = k ∧
      g qt (getBoundRec compute c rt).1 ≤ lastVal (st q)
  · rw [if_pos h, if_pos h]
  · rw [if_neg h, if_neg h]
    exact List.foldl_attach _
      (fun (s : QLists × (Nat → Option ℚ)) (pr : CTree × CTree) =>
        dualRunRec k v g compute pr.1 pr.2 s.1 s.2) _

theorem dualRunRec_cache (k : Nat) (v : Nat → Nat → ℚ) (g : CTree → ℚ → ℚ)
    (compute : CTree → ℚ) :
    ∀ (n : Nat) (qt rt : CTree) (st : QLists) (c : Nat → Option ℚ),
      sizeT qt + sizeT rt ≤ n → ∀ {i : Nat} {b : ℚ}, c i = some b →
      (dualRunRec k v g compute qt rt st c).2 i = some b := by
  intro n
  induction n with
  | zero =>
      intro qt rt st c hsz
      exfalso
      have h1 := sizeT_pos qt
      have h2 := sizeT_pos rt
      omega
  | succ n ih =>
      intro qt rt st c hsz i b h
      have hpres := getBoundRec_preserve compute c rt h
      rw [dualRunRec_eq]
      by_cases hpr : ∀ q ∈ flattenT qt, (st q).length = k ∧
          g qt (getBoundRec compute c rt).1 ≤ lastVal (st q)
      · rw [if_pos hpr]
        exact hpres
      · rw [if_neg hpr]
        have hfold : ∀ (pl : List (CTree × CTree)),
            (∀ p ∈ pl, sizeT p.1 + sizeT p.2 ≤ n) →
            ∀ (s : QLists × (Nat → Option ℚ)), s.2 i = some b →
            (pl.foldl (fun s pr => dualRunRec k v g compute pr.1 pr.2 s.1 s.2) s).2 i =
              some b := by
          intro pl
          induction pl with
          | nil =>
              intro _ s hs
              exact hs
          | cons pr rest ihl =>
              intro hszs s hs
              rw [List.foldl_cons]
              refine ihl (fun p hp => hszs p (List.mem_cons_of_mem _ hp)) _ ?_
              exact ih pr.1 pr.2 s.1 s.2 (hszs pr (List.mem_cons_self _ _)) hs
        refine hfold _ ?_ _ hpres
        intro p hp
        have hm := (insSortBy_perm (fun p => g p.1 (compute p.2)) (pairsOf qt rt)).mem_iff.1 hp
        have := pairsOf_size hm
        omega

def cexV : Nat → ℚ := fun i => if i = 0 then 1 else 5

def cexT : CTree := .node 0 (.fcons (.node 1 .fnil) (.fcons (.node 2 .fnil) .fnil))

def cexB : CTree → ℚ := maxBound cexV

def witV : Nat → Nat → ℚ := fun _ r => if r = 0 then 2 else 1

def witQT : CTree := .node 0 .fnil

def witRT : CTree := .node 0 (.fcons (.node 1 .fnil) .fnil)

/-- C1 counterexample: with tied kernel values the single-tree mode and the
naive mode return different index matrices.  The dataset has kernel column
(1, 5, 5); the bound is the exact maximum under each node (admissible, first
conjunct), the tree holds each reference point once (second conjunct), yet
naive search returns indices (1, 2) and single-tree search (2, 1). -/
theorem mode_equivalence_counterexample :
    (∀ t ∈ subtreesT cexT, ∀ i ∈ flattenT t, cexV i ≤ cexB t) ∧
    List.Perm (flattenT cexT) (List.range 3) ∧
    naiveList 2 cexV 3 = [(1, 5), (2, 5)] ∧
    stSearch 2 cexV cexB [cexT] [] = [(2, 5), (1, 5)] ∧
    (stSearch 2 cexV cexB [cexT] []).map (fun e => e.1) ≠
      (naiveList 2 cexV 3).map (fun e => e.1) := by
  have h1 : stSearch 2 cexV cexB [cexT] [] = [(2, 5), (1, 5)] := by
    simp +decide [stSearch, cexT, cexB, cexV, maxBound, maxQ, flattenT, flattenF,
      CTree.children, CTree.rep, toListF, insSortBy, insKeyed, offer, insertSorted,
      lastVal]
  refine ⟨by decide, by decide, by decide, h1, ?_⟩
  rw [h1]
  decide

/-- C1 (amended): when, for each query, the kernel values over distinct
reference points are pairwise distinct, the naive, single-tree and dual-tree
modes return identical candidate lists (indices and values; in this exact
model the values are equal outright, hence within any tolerance), for every
admissible node bound and pair bound and every tree holding each point
once. -/
theorem mode_equivalence_of_distinct (k nQ nR : Nat) (hk : 1 ≤ k)
    (v : Nat → Nat → ℚ) (B : Nat → CTree → ℚ) (pB : CTree → CTree → ℚ)
    (qt rt : CTree)
    (hq : List.Perm (flattenT qt) (List.range nQ))
    (hr : List.Perm (flattenT rt) (List.range nR))
    (hB : ∀ q < nQ, ∀ (t : CTree), ∀ i ∈ flattenT t, v q i ≤ B q t)
    (hpB : ∀ (a b : CTree), ∀ x ∈ flattenT a, ∀ r ∈ flattenT b, v x r ≤ pB a b)
    (hinj : ∀ q < nQ, ∀ i < nR, ∀ j < nR, i ≠ j → v q i ≠ v q j) :
    ∀ q < nQ, stSearch k (v q) (B q) [rt] [] = naiveList k (v q) nR ∧
      dualSearch k v pB qt rt q = naiveList k (v q) nR := by
  intro q hq'
  constructor
  · exact stSearch_eq_naive k hk (v q) (B q) (hB q hq') rt nR hr (hinj q hq')
  · exact dualSearch_eq_naive k v pB hpB qt rt nQ nR hq hr hinj q hq'

/-- C1 witness: the amended mode equivalence applied to a concrete
two-point dataset with distinct kernel values. -/
theorem mode_equivalence_witness :
    ((1 : Nat) ≤ 1 ∧ List.Perm (flattenT witQT) (List.range 1) ∧
      List.Perm (flattenT witRT) (List.range 2) ∧
      (∀ q < 1, ∀ i < 2, ∀ j < 2, i ≠ j → witV q i ≠ witV q j)) ∧
    (stSearch 1 (witV 0) (maxBound (witV 0)) [witRT] [] = naiveList 1 (witV 0) 2 ∧
      dualSearch 1 witV (maxPairBound witV) witQT witRT 0 = naiveList 1 (witV 0) 2) :=
  ⟨⟨by decide, by decide, by decide, by decide⟩,
    mode_equivalence_of_distinct 1 1 2 (by decide) witV (fun q => maxBound (witV q))
      (maxPairBound witV) witQT witRT (by decide) (by decide)
      (fun q _ t i hi => maxBound_valid (witV q) t i hi)
      (maxPairBound_valid witV) (by decide) 0 (by decide)⟩

/-- C2: every bound used for pruning overestimates or equals the true
achievable kernel value: the node bound dominates K(q, x) for every query q
and every point x under the node, and the pair bound dominates K(q, r) for
every q under the query node and r under the reference node, for a kernel
realized through the Metric Embedding's feature map. -/
theorem bound_overestimates {E : Type} [NormedAddCommGroup E]
    [InnerProductSpace ℝ E] (φ : Nat → E) :
    (∀ (t : CTree) (q : Nat), ∀ x ∈ flattenT t, kerOf φ q x ≤ getBound φ q t) ∧
    (∀ (qn rn : CTree), ∀ q ∈ flattenT qn, ∀ r ∈ flattenT rn,
      kerOf φ q r ≤ pairBound φ qn rn) :=
  ⟨fun t q x hx => getBound_valid φ q t x hx,
    fun qn rn q hq r hr => pairBound_valid φ qn rn q hq r hr⟩

noncomputable def witPhi : Nat → ℝ := fun i => (i : ℝ)

/-- C2 witness: the bound domination applied at concrete points of a
concrete one-dimensional embedding. -/
theorem bound_overestimates_witness :
    ((1 : Nat) ∈ flattenT witRT ∧
      kerOf witPhi 1 1 ≤ getBound witPhi 1 witRT) ∧
    ((0 : Nat) ∈ flattenT witQT ∧ (1 : Nat) ∈ flattenT witRT ∧
      kerOf witPhi 0 1 ≤ pairBound witPhi witQT witRT) :=
  ⟨⟨by decide, (bound_overestimates witPhi).1 witRT 1 1 (by decide)⟩,
    ⟨by decide, by decide,
      (bound_overestimates witPhi).2 witQT witRT 0 (by decide) 1 (by decide)⟩⟩

end FastMKS

namespace FastMKS

/-- C3: sparse and dense storage of the same logical dataset give identical
search results.  In exact arithmetic the sparse and dense kernel evaluations
agree outright, so the naive and single-tree searches agree entrywise (both
for the inner-product kernel and a polynomial kernel over it), which implies
the spec's toleranced forms: equal indices, values within any relative
tolerance, and a dense value within 1e-15 of zero whenever the sparse value
is at most 1e-15 in magnitude. -/
theorem sparse_dense_equivalence (d n k : Nat) (data : Nat → SpVec)
    (hwf : ∀ a, WfSp d (data a)) (q : Nat) (deg : Nat) (off : ℚ) :
    (∀ a b : Nat, dotSp (data a) (data b) =
      dotDense d (toDense (data a)) (toDense (data b))) ∧
    naiveList k (fun r => dotSp (data q) (data r)) n =
      naiveList k (fun r => dotDense d (toDense (data q)) (toDense (data r))) n ∧
    naiveList k (fun r => polyOf deg off (dotSp (data q) (data r))) n =
      naiveList k (fun r => polyOf deg off
        (dotDense d (toDense (data q)) (toDense (data r)))) n ∧
    (∀ (B : CTree → ℚ) (t : CTree),
      stSearch k (fun r => dotSp (data q) (data r)) B [t] [] =
        stSearch k (fun r => dotDense d (toDense (data q)) (toDense (data r))) B [t] []) ∧
    (∀ (j : Nat) (e₁ e₂ : Entry),
      (naiveList k (fun r => dotSp (data q) (data r)) n).get? j = some e₁ →
      (naiveList k (fun r => dotDense d (toDense (data q)) (toDense (data r))) n).get? j =
        some e₂ →
      e₁.1 = e₂.1 ∧ e₁.2 = e₂.2 ∧
        (|e₁.2| ≤ 1 / 10 ^ 15 → |e₂.2 - 0| ≤ 1 / 10 ^ 15) ∧
        (1 / 10 ^ 15 < |e₁.2| → |e₁.2 - e₂.2| ≤ 1 / 10 ^ 5 * |e₁.2|)) := by
  have hker : ∀ a b : Nat, dotSp (data a) (data b) =
      dotDense d (toDense (data a)) (toDense (data b)) :=
    fun a b => dotSp_eq_dotDense (data a) (data b) (hwf a)
  have hfun : (fun r => dotSp (data q) (data r)) =
      (fun r => dotDense d (toDense (data q)) (toDense (data r))) :=
    funext (fun r => hker q r)
  have hfun2 : (fun r => polyOf deg off (dotSp (data q) (data r))) =
      (fun r => polyOf deg off (dotDense d (toDense (data q)) (toDense (data r)))) :=
    funext (fun r => by rw [hker q r])
  refine ⟨hker, by rw [hfun], by rw [hfun2], fun B t => by rw [hfun], ?_⟩
  intro j e₁ e₂ h₁ h₂
  rw [hfun, h₂] at h₁
  have he : e₁ = e₂ := by
    injection h₁ with h
    exact h.symm
  subst he
  refine ⟨rfl, rfl, ?_, ?_⟩
  · intro h
    simpa using h
  · intro _
    simp

def witSp : Nat → SpVec := fun a => if a = 0 then [(0, 1)] else [(1, 3)]

/-- C3 witness: the representation equivalence applied to a concrete sparse
dataset of two points in two dimensions. -/
theorem sparse_dense_equivalence_witness :
    (∀ a, WfSp 2 (witSp a)) ∧
    naiveList 1 (fun r => dotSp (witSp 0) (witSp r)) 2 =
      naiveList 1 (fun r => dotDense 2 (toDense (witSp 0)) (toDense (witSp r))) 2 :=
  ⟨fun a => by
      by_cases h : a = 0 <;> simp [witSp, h, WfSp],
    (sparse_dense_equivalence 2 2 1 witSp
      (fun a => by by_cases h : a = 0 <;> simp [witSp, h, WfSp]) 0 3 0).2.1⟩

/-- C4: the Offer contract: below capacity the entry is inserted preserving
descending order; at capacity the minimum (k-th) entry is replaced exactly
when the new value is strictly greater, a tie with the k-th entry leaves the
list unchanged, and the returned flag is true exactly when an insertion or
replacement occurred. -/
theorem offer_contract (k : Nat) (l : List Entry) (e : Entry)
    (hs : sortedDesc l) (hlen : l.length ≤ k) :
    (l.length < k → offer k l e = (insertSorted e l, true) ∧
      sortedDesc (insertSorted e l) ∧ List.Perm (insertSorted e l) (e :: l)) ∧
    (l.length = k → lastVal l < e.2 → l ≠ [] →
      offer k l e = (insertSorted e l.dropLast, true) ∧
      sortedDesc (insertSorted e l.dropLast) ∧
      List.Perm (insertSorted e l.dropLast) (e :: l.dropLast)) ∧
    (l.length = k → e.2 ≤ lastVal l → offer k l e = (l, false)) ∧
    (l.length = k → e.2 = lastVal l → offer k l e = (l, false)) ∧
    ((offer k l e).2 = true ↔ (l.length < k ∨ (l ≠ [] ∧ lastVal l < e.2))) := by
  refine ⟨?_, ?_, ?_, ?_, ?_⟩
  · intro hlt
    exact ⟨by simp [offer, if_pos hlt], insertSorted_sorted hs, insertSorted_perm e l⟩
  · intro hk hv hne
    have hnl : ¬ l.length < k := by omega
    have hgl : l.getLast? = some (l.getLast hne) := List.getLast?_eq_getLast l hne
    have hlv : lastVal l = (l.getLast hne).2 := by
      rw [lastVal, hgl]
    refine ⟨?_, insertSorted_sorted (List.Pairwise.sublist (List.dropLast_sublist l) hs),
      insertSorted_perm e l.dropLast⟩
    simp only [offer, if_neg hnl, hgl,
      if_pos (show (l.getLast hne).2 < e.2 from hlv ▸ hv)]
  · intro hk hv
    exact offer_noop hk hv
  · intro hk hv
    exact offer_noop hk (le_of_eq hv)
  · by_cases hlt : l.length < k
    · simp [offer, if_pos hlt, hlt]
    · cases hgl : l.getLast? with
      | none =>
          have hne : l = [] := by
            cases l with
            | nil => rfl
            | cons a m => simp [List.getLast?_eq_getLast (a :: m) (by simp)] at hgl
          subst hne
          have hk0 : ¬ (0 : Nat) < k := by simpa using hlt
          simp [offer, hk0]
      | some m =>
          have hne : l ≠ [] := by
            intro hcon
            subst hcon
            simp at hgl
          have hlv : lastVal l = m.2 := by
            rw [lastVal, hgl]
          by_cases hv : m.2 < e.2
          · simp only [offer, if_neg hlt, hgl, if_pos hv]
            simp [hne, hlv, hv, hlt]
          · simp only [offer, if_neg hlt, hgl, if_neg hv]
            rw [← hlv] at hv
            simp [hne, hlt, hv]

/-- C4 witness: the Offer contract applied to a concrete full list where the
new value ties the k-th entry (no replacement, flag false). -/
theorem offer_contract_witness :
    (sortedDesc [((0 : Nat), (5 : ℚ)), (1, 3)] ∧
      ([((0 : Nat), (5 : ℚ)), (1, 3)] : List Entry).length ≤ 2) ∧
    ((offer 2 [((0 : Nat), (5 : ℚ)), (1, 3)] (2, 3)).2 = true ↔
      (([((0 : Nat), (5 : ℚ)), (1, 3)] : List Entry).length < 2 ∨
        (([((0 : Nat), (5 : ℚ)), (1, 3)] : List Entry) ≠ [] ∧
          lastVal [((0 : Nat), (5 : ℚ)), (1, 3)] < (3 : ℚ)))) :=
  ⟨⟨by decide, by decide⟩,
    (offer_contract 2 [((0 : Nat), (5 : ℚ)), (1, 3)] (2, 3)
      (by decide) (by decide)).2.2.2.2⟩

end FastMKS

namespace FastMKS

/-- C5 counterexample: after a completed single-tree search on a dataset
with a tied kernel value, the final candidate list is (2, 5), (1, 5): it is
sorted descending by value, but the tie is in descending reference index
order, violating the ascending-index tie-break clause.  The bound used is
admissible (first conjunct) and the tree holds each point once (second). -/
theorem result_ordering_counterexample :
    (∀ t ∈ subtreesT cexT, ∀ i ∈ flattenT t, cexV i ≤ cexB t) ∧
    List.Perm (flattenT cexT) (List.range 3) ∧
    stSearch 2 cexV cexB [cexT] [] = [(2, 5), (1, 5)] ∧
    ¬ lexSorted (stSearch 2 cexV cexB [cexT] []) := by
  have h1 : stSearch 2 cexV cexB [cexT] [] = [(2, 5), (1, 5)] := by
    simp +decide [stSearch, cexT, cexB, cexV, maxBound, maxQ, flattenT, flattenF,
      CTree.children, CTree.rep, toListF, insSortBy, insKeyed, offer, insertSorted,
      lastVal]
  refine ⟨by decide, by decide, h1, ?_⟩
  rw [h1]
  decide

/-- C5 (amended): after every completed search, each candidate list is
sorted non-increasingly by kernel value in all three modes, and each final
list has length min(k, number of reference points) in all three modes (for
the tree modes, given only that the trees hold each point exactly once).
The naive list additionally breaks ties by ascending reference index; under
pairwise-distinct kernel values per query the single-tree and dual-tree
lists satisfy the full invariant as well, ascending-index tie order
included (vacuously, there being no ties). -/
theorem result_ordering_invariants :
    (∀ (k : Nat) (v : Nat → ℚ) (B : CTree → ℚ) (t : CTree),
      sortedDesc (stSearch k v B [t] [])) ∧
    (∀ (k n : Nat) (v : Nat → ℚ) (B : CTree → ℚ) (t : CTree),
      List.Perm (flattenT t) (List.range n) →
      (stSearch k v B [t] []).length = min k n) ∧
    (∀ (k n : Nat) (v : Nat → ℚ), lexSorted (naiveList k v n) ∧
      sortedDesc (naiveList k v n) ∧ (naiveList k v n).length = min k n) ∧
    (∀ (k : Nat) (v : Nat → Nat → ℚ) (pB : CTree → CTree → ℚ) (qt rt : CTree) (q : Nat),
      sortedDesc (dualSearch k v pB qt rt q)) ∧
    (∀ (k nQ nR : Nat) (v : Nat → Nat → ℚ) (pB : CTree → CTree → ℚ) (qt rt : CTree),
      List.Perm (flattenT qt) (List.range nQ) →
      List.Perm (flattenT rt) (List.range nR) →
      ∀ q < nQ, (dualSearch k v pB qt rt q).length = min k nR) ∧
    (∀ (k n : Nat), 1 ≤ k → ∀ (v : Nat → ℚ) (B : CTree → ℚ) (t : CTree),
      List.Perm (flattenT t) (List.range n) →
      (∀ (a : CTree), ∀ i ∈ flattenT a, v i ≤ B a) →
      (∀ i < n, ∀ j < n, i ≠ j → v i ≠ v j) →
      lexSorted (stSearch k v B [t] [])) ∧
    (∀ (k nQ nR : Nat), 1 ≤ k →
      ∀ (v : Nat → Nat → ℚ) (pB : CTree → CTree → ℚ) (qt rt : CTree),
      List.Perm (flattenT qt) (List.range nQ) →
      List.Perm (flattenT rt) (List.range nR) →
      (∀ (a b : CTree), ∀ x ∈ flattenT a, ∀ r ∈ flattenT b, v x r ≤ pB a b) →
      (∀ q < nQ, ∀ i < nR, ∀ j < nR, i ≠ j → v q i ≠ v q j) →
      ∀ q < nQ, lexSorted (dualSearch k v pB qt rt q) ∧
        (dualSearch k v pB qt rt q).length = min k nR) := by
  refine ⟨?_, ?_, ?_, ?_, ?_, ?_, ?_⟩
  · intro k v B t
    exact stSearch_sorted k v B (sizeL [t]) [t] [] (le_refl _) List.Pairwise.nil
  · intro k n v B t hperm
    have h := stSearch_length k v B (sizeL [t]) [t] [] (le_refl _) (by simp)
    rw [h]
    have hlen : ((([t] : List CTree).flatMap flattenT)).length = n := by
      simp only [List.flatMap_cons, List.flatMap_nil, List.append_nil]
      exact hperm.length_eq.trans (List.length_range n)
    rw [hlen]
    simp
  · intro k n v
    have hlex := naiveList_lex k v n
    exact ⟨hlex, hlex.imp (fun h => by
      rcases h with h | h
      · exact le_of_lt h
      · exact le_of_eq h.1.symm), naiveList_length k v n⟩
  · intro k v pB qt rt q
    refine dualRun_sorted k v pB (sizeT qt + sizeT rt) qt rt _ (le_refl _) ?_ q
    intro y
    exact List.Pairwise.nil
  · intro k nQ nR v pB qt rt hq hr q hq'
    exact dualSearch_length k v pB qt rt nQ nR hq hr q hq'
  · intro k n hk v B t hperm hB hinj
    rw [stSearch_eq_naive k hk v B hB t n hperm hinj]
    exact naiveList_lex k v n
  · intro k nQ nR hk v pB qt rt hq hr hpB hinj q hq'
    have heq := dualSearch_eq_naive k v pB hpB qt rt nQ nR hq hr hinj q hq'
    rw [heq]
    exact ⟨naiveList_lex k (v q) nR, naiveList_length k (v q) nR⟩

/-- C5 witness: the invariants applied at concrete instances: the
single-tree length clause on the tied dataset, the unconditional dual-tree
length clause, and the distinct-values single-tree tie-break clause. -/
theorem result_ordering_invariants_witness :
    (List.Perm (flattenT cexT) (List.range 3) ∧
      (stSearch 2 cexV cexB [cexT] []).length = min 2 3) ∧
    (List.Perm (flattenT witQT) (List.range 1) ∧
      List.Perm (flattenT witRT) (List.range 2) ∧
      (dualSearch 2 witV (maxPairBound witV) witQT witRT 0).length = min 2 2) ∧
    ((1 : Nat) ≤ 1 ∧ lexSorted (stSearch 1 (witV 0) (maxBound (witV 0)) [witRT] [])) :=
  ⟨⟨by decide, result_ordering_invariants.2.1 2 3 cexV cexB cexT (by decide)⟩,
    ⟨by decide, by decide, result_ordering_invariants.2.2.2.2.1 2 1 2 witV
      (maxPairBound witV) witQT witRT (by decide) (by decide) 0 (by decide)⟩,
    ⟨by decide, result_ordering_invariants.2.2.2.2.2.1 1 2 (by decide) (witV 0)
      (maxBound (witV 0)) witRT (by decide)
      (fun a i hi => maxBound_valid (witV 0) a i hi) (by decide)⟩⟩

/-- C6: a Search call with k = 0 or k exceeding the number of reference
points fails with an InvalidArgument condition before any traversal begins:
for every traversal `run` the call returns the error without invoking it,
and the search state is returned untouched. -/
theorem searchCall_invalid {α : Type} (k nR : Nat) (run : SState → α × SState)
    (st : SState) (h : k = 0 ∨ nR < k) :
    searchCall k nR run st = (Except.error SearchError.invalidArgument, st) := by
  rw [searchCall, if_pos h]

/-- C6 witness: the validation applied at k = 0 with a concrete state and a
concrete traversal. -/
theorem searchCall_invalid_witness :
    ((0 : Nat) = 0 ∨ 5 < 0) ∧
    searchCall 0 5 (fun st : SState => ((7 : Nat), st))
        ⟨fun _ => none, fun _ => []⟩ =
      (Except.error SearchError.invalidArgument, ⟨fun _ => none, fun _ => []⟩) :=
  ⟨Or.inl rfl, searchCall_invalid 0 5 (fun st => ((7 : Nat), st))
    ⟨fun _ => none, fun _ => []⟩ (Or.inl rfl)⟩

/-- C7: the Metric Embedding returns
`sqrt (max (K(x,x) - 2 K(x,y) + K(y,y)) 0)` for every pair of points and
every kernel: it is always non-negative, collapses to zero when the
radicand is negative (non-PSD kernel or floating error), and equals the
plain square root of the radicand when that is non-negative. -/
theorem ipMetric_contract (K : Nat → Nat → ℝ) (x y : Nat) :
    ipMetric K x y = Real.sqrt (max (K x x - 2 * K x y + K y y) 0) ∧
    0 ≤ ipMetric K x y ∧
    (K x x - 2 * K x y + K y y < 0 → ipMetric K x y = 0) ∧
    (0 ≤ K x x - 2 * K x y + K y y →
      ipMetric K x y = Real.sqrt (K x x - 2 * K x y + K y y)) := by
  refine ⟨rfl, Real.sqrt_nonneg _, ?_, ?_⟩
  · intro h
    rw [ipMetric, max_eq_right (le_of_lt h), Real.sqrt_zero]
  · intro h
    rw [ipMetric, max_eq_left h]

noncomputable def Kneg : Nat → Nat → ℝ := fun a b => if a = b then 0 else 1

/-- C7 witness: the embedding contract at a concrete non-PSD kernel whose
radicand at (0, 1) is negative, forcing the clamp to zero. -/
theorem ipMetric_contract_witness :
    Kneg 0 0 - 2 * Kneg 0 1 + Kneg 1 1 < 0 ∧ ipMetric Kneg 0 1 = 0 :=
  ⟨by norm_num [Kneg], (ipMetric_contract Kneg 0 1).2.2.1 (by norm_num [Kneg])⟩

/-- C8: once a node's Bound Record has been computed (the cache holds
`some b` at the node's key), no later step of a single-threaded search
modifies it: the record survives any single-tree search over any query
sequence and any dual-tree pair traversal unchanged, and a later GetBound
at that node, in either mode, returns the stored value. -/
theorem bound_record_immutable (k : Nat) (v : Nat → Nat → ℚ) (g : Nat → ℚ → ℚ)
    (gd : CTree → ℚ → ℚ) (compute : CTree → ℚ) (root qt rt : CTree)
    (queries : List Nat) (st : QLists)
    (c : Nat → Option ℚ) (i : Nat) (b : ℚ) (h : c i = some b) :
    (searchAllRec k v g compute root queries c).2 i = some b ∧
    (dualRunRec k v gd compute qt rt st c).2 i = some b ∧
    (∀ (t : CTree), t.rep = i →
      (getBoundRec compute (searchAllRec k v g compute root queries c).2 t).1 = b) ∧
    (∀ (t : CTree), t.rep = i →
      (getBoundRec compute (dualRunRec k v gd compute qt rt st c).2 t).1 = b) := by
  have hpres := searchAllRec_cache k v g compute root queries c h
  have hpresd := dualRunRec_cache k v gd compute (sizeT qt + sizeT rt) qt rt st c
    (le_refl _) h
  refine ⟨hpres, hpresd, ?_, ?_⟩
  · intro t ht
    apply getBoundRec_hit
    rw [ht]
    exact hpres
  · intro t ht
    apply getBoundRec_hit
    rw [ht]
    exact hpresd

/-- C8 witness: cache immutability applied to a concrete single-tree search
over one query and a concrete dual-tree traversal, with a precomputed
record at key 5. -/
theorem bound_record_immutable_witness :
    ((fun j => if j = 5 then some (9 : ℚ) else none) 5 = some 9) ∧
    (searchAllRec 1 (fun _ _ => 1) (fun _ b => b) (fun _ => 0) witRT [0]
        (fun j => if j = 5 then some (9 : ℚ) else none)).2 5 = some 9 ∧
    (dualRunRec 1 (fun _ _ => 1) (fun _ b => b) (fun _ => 0) witQT witRT (fun _ => [])
        (fun j => if j = 5 then some (9 : ℚ) else none)).2 5 = some 9 :=
  ⟨rfl,
    (bound_record_immutable 1 (fun _ _ => 1) (fun _ b => b) (fun _ b => b) (fun _ => 0)
      witRT witQT witRT [0] (fun _ => [])
      (fun j => if j = 5 then some (9 : ℚ) else none) 5 9 rfl).1,
    (bound_record_immutable 1 (fun _ _ => 1) (fun _ b => b) (fun _ b => b) (fun _ => 0)
      witRT witQT witRT [0] (fun _ => [])
      (fun j => if j = 5 then some (9 : ℚ) else none) 5 9 rfl).2.1⟩

end FastMKS

namespace mlpack.ann.TanhFunction

/-- C10: `TanhFunction::deriv` takes the activation output y and returns
`1 - y^2`, so `deriv (fn x)` equals the true derivative of tanh at x,
namely `1 - tanh(x)^2`, in exact arithmetic. -/
theorem deriv_fn_correct (x : ℝ) :
    deriv (fn x) = 1 - Real.tanh x ^ 2 ∧ HasDerivAt fn (deriv (fn x)) x := by
  have h : deriv (fn x) = 1 - Real.tanh x ^ 2 := by
    rw [deriv, fn]
  exact ⟨h, h ▸ hasDerivAt_fn x⟩

end mlpack.ann.TanhFunction
